import Mathlib

/-!
Verification development for the transfer matching and reconciliation engine
of cryptonabber-txn-sync.

Modelling conventions: Go strings are lists of characters; Go `*big.Int`
values are Lean `Int`; Go slices are Lean lists; a Go `time.Time` is the
record of its calendar date (UTC) and time of day; fallible Go functions
return `Except` with the error text they format.  Interactive prompts and
HTTP collaborators are passed in as oracle functions, matching the spec's
treatment of them as external collaborators.
-/

namespace TxnSync

/-- Lower-cases one ASCII character, as Go `strings.ToLower` behaves on the
ASCII address and hash strings this program handles. -/
def lowerChar (c : Char) : Char :=
  if 'A' ≤ c ∧ c ≤ 'Z' then Char.ofNat (c.toNat + 32) else c

/-- Models Go `strings.ToLower` on an ASCII string. -/
def lowerStr (s : List Char) : List Char := s.map lowerChar

/-- Gregorian leap-year test for a year. -/
def isLeapYear (y : Int) : Bool :=
  (Int.emod y 4 == 0 && Int.emod y 100 != 0) || Int.emod y 400 == 0

/-- Days strictly before the first day of month `m` in a non-leap year. -/
def daysBeforeMonthBase (m : Nat) : Nat :=
  match m with
  | 1 => 0 | 2 => 31 | 3 => 59 | 4 => 90 | 5 => 120 | 6 => 151
  | 7 => 181 | 8 => 212 | 9 => 243 | 10 => 273 | 11 => 304 | 12 => 334
  | _ => 0

/-- Days strictly before the first day of month `m`, with leap adjustment. -/
def daysBeforeMonth (leap : Bool) (m : Nat) : Nat :=
  daysBeforeMonthBase m + (if leap && decide (2 < m) then 1 else 0)

/-- Leap years of the proleptic Gregorian calendar strictly before year `y`. -/
def leapsBefore (y : Int) : Int :=
  Int.fdiv (y - 1) 4 - Int.fdiv (y - 1) 100 + Int.fdiv (y - 1) 400

/-- A calendar date (UTC): the year/month/day triple of a Go `time.Time`. -/
structure Date where
  year : Int
  month : Nat
  day : Nat
deriving DecidableEq, Repr

/-- An instant in UTC: calendar date plus time of day. -/
structure DateTime where
  date : Date
  hour : Nat
  minute : Nat
  second : Nat
deriving DecidableEq, Repr

/-- Day number of a calendar date in the proleptic Gregorian calendar: two
dates are `k` calendar days apart exactly when their day numbers differ
by `k`. -/
def dayNumber (d : Date) : Int :=
  365 * (d.year - 1) + leapsBefore d.year
    + (daysBeforeMonth (isLeapYear d.year) d.month : Int) + (d.day : Int)

/-- Embeds `internal/transaction.Transfer`: one parsed export row. -/
structure Transfer where
  fromAddress : List Char
  toAddress : List Char
  amount : Option Int
  executionTime : DateTime
  transactionHash : List Char
deriving DecidableEq, Repr

/-- Embeds `internal/token.Details`. -/
structure Details where
  name : List Char
  decimals : Int
deriving DecidableEq, Repr

/-- Embeds `internal/ynab/client.Transaction`: one ledger entry.  The ledger
date carries no time of day. -/
structure Transaction where
  id : List Char
  amount : Int
  date : Date
  description : List Char
  cleared : Bool
deriving DecidableEq, Repr

/-- Models Go `new(big.Int).Exp(big.NewInt(10), big.NewInt(e), nil)`:
`big.Int.Exp` yields 1 for a negative exponent. -/
def goExp10 (e : Int) : Int :=
  if e < 0 then 1 else 10 ^ e.toNat

/-- Modelled from the spec: the date-tolerance rule of the transfer matcher
(spec section 4.3 rule 1).  The matcher `transfer.MatchTransfers` is code of
this repository that is absent from `src/` (only its tests and its caller
appear there); per the spec, the transfer's execution date may differ from
the ledger entry's date by at most one calendar day in either direction. -/
def withinOneDay (a b : Date) : Bool :=
  decide ((dayNumber a - dayNumber b).natAbs ≤ 1)

/-- Modelled from the spec: `ledgerAmountToExpectedBaseUnits` (spec section
4.1): the absolute ledger amount times ten to the token's decimals, floor
divided by 1000. -/
def expectedBaseUnits (ledgerAmount : Int) (decimals : Int) : Int :=
  let absAmt := if ledgerAmount < 0 then -ledgerAmount else ledgerAmount
  Int.fdiv (absAmt * goExp10 decimals) 1000

/-- Modelled from the spec: the match predicate of `transfer.MatchTransfers`
(spec section 4.3), whose source is absent from `src/`: the execution date is
within one calendar day of the entry's date; for a negative (outbound) ledger
amount the transfer's from-address equals the wallet address case-insensitively,
otherwise the to-address does; a transfer with an absent amount never matches;
otherwise the expected base units must equal the transfer amount exactly. -/
def matchesTransfer (txn : Transaction) (address : List Char) (td : Details)
    (tr : Transfer) : Bool :=
  withinOneDay tr.executionTime.date txn.date
    && (if txn.amount < 0
        then lowerStr tr.fromAddress == lowerStr address
        else lowerStr tr.toAddress == lowerStr address)
    && (match tr.amount with
        | none => false
        | some amt => expectedBaseUnits txn.amount td.decimals == amt)

/-- Modelled from the spec: `transfer.MatchTransfers` (package
`internal/ynab/transfer`), whose source is absent from `src/` (only its tests
and its caller in `cmd/main.go` appear there): returns the pool transfers
satisfying the match predicate, in pool order; absent token details yield no
matches. -/
def MatchTransfers (txn : Transaction) (address : List Char)
    (tokenDetails : Option Details) (transfers : List Transfer) : List Transfer :=
  match tokenDetails with
  | none => []
  | some td => transfers.filter (matchesTransfer txn address td)

/-- Embeds `internal/transaction.IgnoredHash`. -/
structure IgnoredHash where
  hash : List Char
  reason : List Char
deriving DecidableEq, Repr

/-- Embeds `internal/transaction.IgnoreList`. -/
structure IgnoreList where
  hashes : List IgnoredHash
deriving DecidableEq, Repr

/-- Embeds `internal/transaction.NewIgnoreList`. -/
def NewIgnoreList : IgnoreList := ⟨[]⟩

/-- Embeds `internal/transaction.IgnoreList.AddProcessedHash`: appends an
entry unconditionally; the current date formatted by `time.Now()` is passed
in as `today`. -/
def AddProcessedHash (i : IgnoreList)
    (transactionHash ynabTransactionID today : List Char) : IgnoreList :=
  ⟨i.hashes ++ [⟨transactionHash,
    "Processed for transaction ID ".data ++ ynabTransactionID
      ++ " on ".data ++ today⟩]⟩

/-- Embeds `internal/transaction.IgnoreList.AddIgnoredHash`: appends an entry
unconditionally; the current date is passed in as `today`. -/
def AddIgnoredHash (i : IgnoreList) (transactionHash today : List Char) :
    IgnoreList :=
  ⟨i.hashes ++ [⟨transactionHash, "Marked as ignored on ".data ++ today⟩]⟩

/-- Embeds `internal/transaction.IgnoreList.IsHashIgnored`:
`strings.EqualFold` membership, modelled as ASCII case folding. -/
def IsHashIgnored (i : IgnoreList) (transactionHash : List Char) : Bool :=
  i.hashes.any (fun h => lowerStr h.hash == lowerStr transactionHash)

/-- Embeds `internal/transaction.IgnoreList.GetHashCount`. -/
def GetHashCount (i : IgnoreList) : Nat := i.hashes.length

/-- Embeds the serialization schema `yamlIgnoredHash` of
`internal/transaction`. -/
structure YamlIgnoredHash where
  hash : List Char
  reason : List Char
deriving DecidableEq, Repr

/-- Embeds the serialization schema `yamlIgnoreList` of
`internal/transaction`. -/
structure YamlIgnoreList where
  ignoredHashes : List YamlIgnoredHash
deriving DecidableEq, Repr

/-- Embeds the structured layer of `internal/transaction.FromYAML`: the loop
that builds an `IgnoreList` from the decoded `yamlIgnoreList`.  The YAML text
decoding itself is performed by the external `go.yaml` collaborator and is
outside the core (spec section 1). -/
def FromSerialized (x : YamlIgnoreList) : IgnoreList :=
  ⟨x.ignoredHashes.map (fun h => ⟨h.hash, h.reason⟩)⟩

/-- Embeds the structured layer of `internal/transaction.ToYAML`: the loop
that builds the `yamlIgnoreList` to be encoded from an `IgnoreList`. -/
def ToSerialized (i : IgnoreList) : YamlIgnoreList :=
  ⟨i.hashes.map (fun h => ⟨h.hash, h.reason⟩)⟩

/-- Embeds `cmd/main.go` `resolveMatchingTransfer`: zero matches resolve to
no transfer, exactly one resolves to it, several defer to the interactive
chooser (`none` models the user skipping; the error models a failed or
canceled prompt). -/
def resolveMatchingTransfer
    (chooser : List Transfer → Except (List Char) (Option Transfer))
    (txn : Transaction) (walletAddress : List Char) (td : Option Details)
    (transfers : List Transfer) : Except (List Char) (Option Transfer) :=
  match MatchTransfers txn walletAddress td transfers with
  | [] => .ok none
  | [t] => .ok (some t)
  | ts => chooser ts

/-- State threaded through the match loop of
`cmd/main.go` `processUnclearedTransactions`. -/
structure SyncState where
  matchedCount : Nat
  unmatchedCount : Nat
  remainingTransfers : List Transfer
  ignoreList : IgnoreList
deriving DecidableEq, Repr

/-- Embeds the match loop of `cmd/main.go` `processUnclearedTransactions`:
each uncleared entry is resolved against the current (shrinking) pool; a
consumed transfer is recorded as processed (unless in dry-run mode) and
removed from the pool.  Go removes by pointer identity every slice slot
holding the matched transfer; this is modelled as removing the equal
values. -/
def processUnclearedTransactions
    (chooser : List Transfer → Except (List Char) (Option Transfer))
    (walletAddress : List Char) (td : Option Details) (dryRun : Bool)
    (today : List Char) :
    List Transaction → SyncState → Except (List Char) SyncState
  | [], st => .ok st
  | txn :: rest, st =>
    match resolveMatchingTransfer chooser txn walletAddress td
        st.remainingTransfers with
    | .error e => .error e
    | .ok none =>
        processUnclearedTransactions chooser walletAddress td dryRun today rest
          ⟨st.matchedCount, st.unmatchedCount + 1, st.remainingTransfers,
            st.ignoreList⟩
    | .ok (some t) =>
        processUnclearedTransactions chooser walletAddress td dryRun today rest
          ⟨st.matchedCount + 1, st.unmatchedCount,
            st.remainingTransfers.filter (fun tr => !(tr == t)),
            if dryRun then st.ignoreList
            else AddProcessedHash st.ignoreList t.transactionHash txn.id today⟩

/-- Is `c` an ASCII decimal digit?  Used to model the digit scanning of
Go `big.Int.SetString` in base 10. -/
def isDigitChar (c : Char) : Bool :=
  decide (48 ≤ c.toNat) && decide (c.toNat ≤ 57)

/-- Numeric value of an ASCII digit character. -/
def digitVal (c : Char) : Nat := c.toNat - 48

/-- Value of a most-significant-first ASCII digit string, as
`big.Int.SetString` accumulates it. -/
def digitsToNat (l : List Char) : Nat :=
  l.foldl (fun acc c => acc * 10 + digitVal c) 0

/-- ASCII digit character for a value below ten. -/
def digitChar (n : Nat) : Char := Char.ofNat (48 + n)

/-- Least-significant-first decimal digits of `n`, with explicit fuel so the
recursion is structural; any fuel above `n` is enough. -/
def natDigitsRevFuel : Nat → Nat → List Char
  | 0, _ => []
  | fuel + 1, n => if n = 0 then [] else digitChar (n % 10) :: natDigitsRevFuel fuel (n / 10)

/-- Canonical decimal rendering of a natural number, as Go prints
arbitrary-precision integers. -/
def natRepr (n : Nat) : List Char :=
  if n = 0 then ['0'] else (natDigitsRevFuel (n + 1) n).reverse

/-- Decimal rendering of an integer, as Go prints `big.Int` values. -/
def intRepr (a : Int) : List Char :=
  if a < 0 then '-' :: natRepr a.natAbs else natRepr a.toNat

/-- Embeds `internal/big.BigIntFromString`'s separator sanitizing (the
revision consistent with its test `int_test.go`): the three sequential
`strings.ReplaceAll` calls delete every comma, underscore and space. -/
def sanitizeSeparators (s : List Char) : List Char :=
  s.filter (fun c => !(c == ',') && !(c == '_') && !(c == ' '))

/-- Models Go `new(big.Int).SetString(s, 10)`: an optional single sign
followed by at least one ASCII decimal digit; anything else is invalid. -/
def setStringBase10 (s : List Char) : Option Int :=
  match s with
  | [] => none
  | c :: rest =>
    if c == '+' then
      if rest.isEmpty || !rest.all isDigitChar then none
      else some ((digitsToNat rest : Nat) : Int)
    else if c == '-' then
      if rest.isEmpty || !rest.all isDigitChar then none
      else some (-((digitsToNat rest : Nat) : Int))
    else
      if (c :: rest).all isDigitChar then some ((digitsToNat (c :: rest) : Nat) : Int)
      else none

/-- Embeds `internal/big.BigIntFromString`: sanitizes grouping separators,
then parses base-10; failure reports the original string. -/
def BigIntFromString (s : List Char) : Except (List Char) Int :=
  match setStringBase10 (sanitizeSeparators s) with
  | some n => .ok n
  | none => .error ("invalid integer string: ".data ++ s)

/-- Models Go `strings.TrimRight(s, "0")`. -/
def trimTrailingZeros (s : List Char) : List Char :=
  (s.reverse.dropWhile (fun c => c == '0')).reverse

/-- Models Go `strings.SplitN(s, ".", 2)` when a dot is present: the part
before the first dot and everything after it. -/
def splitOnFirstDot (s : List Char) : List Char × List Char :=
  (s.takeWhile (fun c => !(c == '.')), (s.dropWhile (fun c => !(c == '.'))).drop 1)

/-- Embeds `splitAmountParts` of `internal/transaction` (the Etherscan CSV
parser): splits a decimal amount into whole tokens, fractional tokens with
trailing zeros trimmed, and the trimmed fractional length. -/
def splitAmountParts (amountStr txHash : List Char) :
    Except (List Char) (Int × Int × Nat) :=
  if !(amountStr.contains '.') then
    match BigIntFromString amountStr with
    | .error e =>
        .error ("parse whole token amount \"".data ++ amountStr
          ++ "\" for transaction hash \"".data ++ txHash ++ "\": ".data ++ e)
    | .ok wholeTokens => .ok (wholeTokens, 0, 0)
  else
    let parts := splitOnFirstDot amountStr
    match BigIntFromString parts.1 with
    | .error e =>
        .error ("parse whole token amount \"".data ++ parts.1
          ++ "\" for transaction hash \"".data ++ txHash ++ "\": ".data ++ e)
    | .ok wholeTokens =>
      let fracTokensString := trimTrailingZeros parts.2
      let fracTokensLength := fracTokensString.length
      if 0 < fracTokensLength then
        match BigIntFromString fracTokensString with
        | .error e =>
            .error ("parse fractional token amount \"".data ++ parts.2
              ++ "\" for transaction hash \"".data ++ txHash ++ "\": ".data ++ e)
        | .ok fracTokens => .ok (wholeTokens, fracTokens, fracTokensLength)
      else .ok (wholeTokens, 0, 0)

/-- The base-unit expansion in the body of `parseAmount` of
`internal/transaction`, after `splitAmountParts` has produced the whole
tokens, fractional tokens and trimmed fractional length. -/
def parseAmountFromParts (amountStr : List Char) (decimals : Int)
    (txHash : List Char) (wholeTokens fracTokens : Int)
    (fracTokensLength : Nat) : Except (List Char) Int :=
  let totalAmount : Int :=
    if 0 < wholeTokens then wholeTokens * goExp10 decimals else 0
  if 0 < fracTokens then
    let exponent := decimals - (fracTokensLength : Int)
    if exponent < 0 then
      .error ("fractional token amount \"".data ++ amountStr
        ++ "\" for transaction hash \"".data ++ txHash
        ++ "\" has more decimal places than token supports".data)
    else .ok (totalAmount + fracTokens * goExp10 exponent)
  else .ok totalAmount

/-- Embeds `parseAmount` of `internal/transaction`: expands whole and
fractional token parts into base units, rejecting an empty amount and
fractional precision beyond the token's decimals. -/
def parseAmount (amountStr : List Char) (decimals : Int) (txHash : List Char) :
    Except (List Char) Int :=
  if amountStr.isEmpty then
    .error ("transaction hash \"".data ++ txHash
      ++ "\" has empty amount field".data)
  else
    match splitAmountParts amountStr txHash with
    | .error e => .error e
    | .ok (wholeTokens, fracTokens, fracTokensLength) =>
        parseAmountFromParts amountStr decimals txHash wholeTokens fracTokens
          fracTokensLength

/-- Pads a digit string on the left with zeros to the given width. -/
def padLeftZeros (l : List Char) (width : Nat) : List Char :=
  List.replicate (width - l.length) '0' ++ l

/-- Models `big.Float.Text('f', d)` of the quotient computed by
`Transfer.FormatAmount` (`internal/transaction/transfer.go`) as the exact
fixed-point rendering of `a / 10 ^ d` with exactly `d` fractional digits.
This coincides with the source only on the domain where its `big.Float`
pipeline is exact, namely `d = 0` (any `a`), or `d ≤ 22` and `|a| < 2 ^ 63`:
the denominator is accumulated at precision 53 (`SetFloat64(1)` then
repeated `Mul` by 10), which holds `10 ^ d` exactly only while its mantissa
`5 ^ d` fits 53 bits, that is `d ≤ 22` (for `d = 0` the loop body never
runs and the denominator is 1, making the quotient exact at the numerator's
own precision); and the quotient is rounded half-even to
`max(64, BitLen(a))` bits, so its error is at most `|a| / 10 ^ d · 2 ^ -64`,
strictly below half of the final decimal digit's place value whenever
`|a| < 2 ^ 63`, in which case `Text('f', d)`, which rounds the binary value
correctly to `d` decimal places, reproduces the exact digits.  Outside this
domain the source's output can differ from the exact rendering (e.g. at
`d = 23` the rounded denominator makes `10 ^ 23` base units print as
`1.00000000000000008388608`), and this model does not apply; the round-trip
theorem below is confined to the exact domain. -/
def floatTextF (a : Int) (d : Nat) : List Char :=
  let sign : List Char := if a < 0 then ['-'] else []
  let n := a.natAbs
  if d = 0 then sign ++ natRepr n
  else sign ++ natRepr (n / 10 ^ d) ++ '.' :: padLeftZeros (natRepr (n % 10 ^ d)) d

/-- The trailing-zero trim loop of `Transfer.FormatAmount`, operating on the
reversed string: drops trailing zeros while more than one character
remains. -/
def trimZerosGoRev : List Char → List Char
  | [] => []
  | [c] => [c]
  | c :: cs => if c == '0' then trimZerosGoRev cs else c :: cs

/-- The full trimming of `Transfer.FormatAmount`: trailing zeros first (kept
non-empty), then one trailing decimal point. -/
def trimGo (s : List Char) : List Char :=
  let s1 := (trimZerosGoRev s.reverse).reverse
  if 1 < s1.length ∧ s1.getLast? = some '.' then s1.dropLast else s1

/-- Embeds `Transfer.FormatAmount`: an absent amount renders as "0";
otherwise the amount is rendered with exactly `decimals` fractional digits
and trailing zeros and a trailing decimal point are trimmed.  The rendering
uses the exact model of the source's `big.Float` division, faithful on the
domain stated at `floatTextF` (`decimals = 0`, or `decimals ≤ 22` with an
amount below `2 ^ 63`); every theorem about `FormatAmount` in this file
stays inside that domain. -/
def FormatAmount (amount : Option Int) (decimals : Nat) : List Char :=
  match amount with
  | none => ['0']
  | some a => trimGo (floatTextF a decimals)

/-- Normalization applied to each CSV header cell by `parseHeader` of
`internal/transaction`: lower-case, then trim surrounding whitespace
(modelled for the ASCII whitespace occurring in such headers). -/
def normalizeHeaderCell (h : List Char) : List Char :=
  let lowered := lowerStr h
  (((lowered.dropWhile (fun c => c == ' ' || c == '\t' || c == '\n' || c == '\r')).reverse.dropWhile
    (fun c => c == ' ' || c == '\t' || c == '\n' || c == '\r')).reverse)

/-- The header-index map of `parseHeader`: Go builds a map in ascending
column order, so for duplicate normalized names the last column wins. -/
def headerIndex (header : List (List Char)) (name : List Char) : Option Nat :=
  header.enum.foldl
    (fun acc p => if normalizeHeaderCell p.2 == name then some p.1 else acc) none

/-- Embeds `requiredColumn` of `internal/transaction`: the index of a
required column, or an error naming the column and listing the columns that
were found. -/
def requiredColumn (header : List (List Char)) (name : List Char) :
    Except (List Char) Nat :=
  match headerIndex header name with
  | some idx => .ok idx
  | none =>
      .error ("CSV is missing required column: ".data ++ name
        ++ " from available columns: [".data
        ++ List.intercalate ", ".data header ++ "]".data)

/-- Embeds `parseHeader` of `internal/transaction`: resolves the five
required columns in order, failing on the first one missing. -/
def parseHeader (header : List (List Char)) :
    Except (List Char) (Nat × Nat × Nat × Nat × Nat) :=
  match requiredColumn header "transaction hash".data with
  | .error e => .error e
  | .ok txIdx =>
    match requiredColumn header "from".data with
    | .error e => .error e
    | .ok fromIdx =>
      match requiredColumn header "to".data with
      | .error e => .error e
      | .ok toIdx =>
        match requiredColumn header "amount".data with
        | .error e => .error e
        | .ok amountIdx =>
          match requiredColumn header "datetime (utc)".data with
          | .error e => .error e
          | .ok timeIdx => .ok (txIdx, fromIdx, toIdx, amountIdx, timeIdx)

/-- Is a date/time field list `y-m-d h:mi:s` structurally valid?  Used by the
wire-format parser below. -/
def validDateTime (y : Int) (mo dy h mi s : Nat) : Bool :=
  decide (1 ≤ mo) && decide (mo ≤ 12)
    && decide (1 ≤ dy)
    && decide (dy ≤ daysBeforeMonth (isLeapYear y) (mo + 1)
        - daysBeforeMonth (isLeapYear y) mo)
    && decide (h ≤ 23) && decide (mi ≤ 59) && decide (s ≤ 59)

/-- Models Go `time.Parse("2006-01-02 15:04:05", s)`: the one fixed wire
format `YYYY-MM-DD HH:MM:SS`, interpreted as UTC, with calendar validity
checked. -/
def parseWireDateTime (s : List Char) : Option DateTime :=
  match s with
  | [y1, y2, y3, y4, '-', m1, m2, '-', d1, d2, ' ', h1, h2, ':', mi1, mi2, ':', s1, s2] =>
    if ([y1, y2, y3, y4, m1, m2, d1, d2, h1, h2, mi1, mi2, s1, s2].all isDigitChar) then
      let y : Int := (digitsToNat [y1, y2, y3, y4] : Nat)
      let mo := digitsToNat [m1, m2]
      let dy := digitsToNat [d1, d2]
      let h := digitsToNat [h1, h2]
      let mi := digitsToNat [mi1, mi2]
      let sec := digitsToNat [s1, s2]
      if validDateTime y mo dy h mi sec then some ⟨⟨y, mo, dy⟩, h, mi, sec⟩
      else none
    else none
  | _ => none

/-- Embeds `parseExecutionTime` of `internal/transaction`; the text of the
underlying standard-library parse error is abstracted. -/
def parseExecutionTime (timeStr txHash : List Char) :
    Except (List Char) DateTime :=
  match parseWireDateTime timeStr with
  | some t => .ok t
  | none =>
      .error ("parse execution time \"".data ++ timeStr
        ++ "\" for transaction hash \"".data ++ txHash ++ "\"".data)

/-- Models Go `strings.TrimSpace` for the ASCII whitespace relevant here. -/
def trimSpace (s : List Char) : List Char :=
  ((s.dropWhile (fun c => c == ' ' || c == '\t' || c == '\n' || c == '\r')).reverse.dropWhile
    (fun c => c == ' ' || c == '\t' || c == '\n' || c == '\r')).reverse

/-- Embeds `parseRecord` of `internal/transaction`: bounds-checks the
resolved column indices, trims each cell, and parses amount and execution
time. -/
def parseRecord (record : List (List Char))
    (txIdx fromIdx toIdx amountIdx timeIdx : Nat) (tokenDetails : Details) :
    Except (List Char) Transfer :=
  if record.length ≤ txIdx || record.length ≤ fromIdx || record.length ≤ toIdx
      || record.length ≤ amountIdx || record.length ≤ timeIdx then
    .error "malformed csv record".data
  else
    let txHash := trimSpace (record.getD txIdx [])
    let fromAddr := trimSpace (record.getD fromIdx [])
    let toAddr := trimSpace (record.getD toIdx [])
    let amountStr := trimSpace (record.getD amountIdx [])
    let timeStr := trimSpace (record.getD timeIdx [])
    match parseAmount amountStr tokenDetails.decimals txHash with
    | .error e => .error e
    | .ok totalAmount =>
      match parseExecutionTime timeStr txHash with
      | .error e => .error e
      | .ok executionTime =>
          .ok ⟨fromAddr, toAddr, some totalAmount, executionTime, txHash⟩

/-- The record-reading loop of `TransfersFromEtherscanCSV`: empty records
are skipped; each other record parses to one transfer, accumulated in file
order; a record failure aborts the parse. -/
def parseTransferRows (txIdx fromIdx toIdx amountIdx timeIdx : Nat)
    (tokenDetails : Details) :
    List (List (List Char)) → List Transfer → Except (List Char) (List Transfer)
  | [], acc => .ok acc
  | record :: rest, acc =>
    if record.isEmpty then
      parseTransferRows txIdx fromIdx toIdx amountIdx timeIdx tokenDetails rest acc
    else
      match parseRecord record txIdx fromIdx toIdx amountIdx timeIdx
          tokenDetails with
      | .error e => .error e
      | .ok t =>
          parseTransferRows txIdx fromIdx toIdx amountIdx timeIdx tokenDetails
            rest (acc ++ [t])

/-- Embeds `TransfersFromEtherscanCSV` of `internal/transaction` over the
already-tokenized CSV (the byte-stream decoding and BOM stripping are the
excluded character-stream collaborator, spec section 1): the first record is
the header, resolved before any row is processed; the remaining records
parse to transfers in file order. -/
def TransfersFromEtherscanCSV (tokenDetails : Details)
    (records : List (List (List Char))) : Except (List Char) (List Transfer) :=
  match records with
  | [] => .error "failed to read the first line of the CSV".data
  | header :: rows =>
    match parseHeader header with
    | .error e => .error e
    | .ok (txIdx, fromIdx, toIdx, amountIdx, timeIdx) =>
      parseTransferRows txIdx fromIdx toIdx amountIdx timeIdx tokenDetails
        rows []

/-- Embeds the pure fields of `transferImporter`
(`internal/transaction/import.go`); the HTTP client, access token and
identifiers are external collaborators. -/
structure TransferImporter where
  tokenDecimals : Int
  minimumAmount : Int
  walletAddress : List Char
deriving DecidableEq, Repr

/-- Embeds `newTransferImporter`: tokens with fewer than 2 decimals are
rejected; otherwise the dust threshold is ten to the (decimals − 2). -/
def newTransferImporter (tokenDecimals : Int) (walletAddress : List Char) :
    Except (List Char) TransferImporter :=
  if tokenDecimals < 2 then
    .error ("tokens with fewer than 2 decimals (".data
      ++ intRepr tokenDecimals ++ ") are not supported".data)
  else
    .ok ⟨tokenDecimals, goExp10 (tokenDecimals - 2), walletAddress⟩

/-- Embeds `transferImporter.isBelowMinimum`. -/
def isBelowMinimum (p : TransferImporter) (amount : Int) : Bool :=
  decide (amount < p.minimumAmount)

/-- Bit length of a natural number, as Go `big.Int.BitLen` reports for the
absolute value. -/
def bitLen (n : Nat) : Nat := if n = 0 then 0 else Nat.log2 n + 1

/-- Embeds `transferImporter.convertToYNABAmount`: base units times 1000,
truncated-divided (Go `big.Int.Quo`) by ten to the decimals, negated for an
outbound transfer; a result of more than 63 bits is an overflow error. -/
def convertToYNABAmount (amount : Int) (isOutbound : Bool) (decimals : Int) :
    Except (List Char) Int :=
  let num := amount * 1000
  let denom := goExp10 decimals
  let ynabMilli := Int.tdiv num denom
  let signed := if isOutbound then -ynabMilli else ynabMilli
  if 63 < bitLen signed.natAbs then
    .error ("computed amount exceeds int64: ".data ++ intRepr signed)
  else .ok signed

/-- A user decision for one offered transfer, as `promptCreateTransaction`
returns it; `none` models a canceled prompt. -/
inductive ImportAction where
  | create
  | skip
  | ignore
deriving DecidableEq, Repr

/-- Embeds `transferImporter.determineDirection`. -/
def determineDirection (p : TransferImporter) (tr : Transfer) :
    Option (Bool × List Char) :=
  if lowerStr tr.fromAddress == lowerStr p.walletAddress then
    some (true, tr.toAddress)
  else if lowerStr tr.toAddress == lowerStr p.walletAddress then
    some (false, tr.fromAddress)
  else none

/-- Embeds `transferImporter.processTransfer` over the interactive oracle:
transfers not touching the wallet or below the dust threshold are passed
over silently; otherwise the oracle's decision is followed ("ignore" records
the hash; a canceled prompt aborts). -/
def processTransfer (p : TransferImporter)
    (oracle : Transfer → Option ImportAction) (today : List Char)
    (il : IgnoreList) (tr : Transfer) : Except (List Char) IgnoreList :=
  match determineDirection p tr with
  | none => .ok il
  | some _ =>
    if match tr.amount with
       | some amt => isBelowMinimum p amt
       | none => false then .ok il
    else
      match oracle tr with
      | none => .error "user canceled operation".data
      | some ImportAction.skip => .ok il
      | some ImportAction.ignore => .ok (AddIgnoredHash il tr.transactionHash today)
      | some ImportAction.create => .ok il

/-- Embeds `transferImporter.processTransfers`: each transfer in turn;
cancellation aborts the pass. -/
def processTransfers (p : TransferImporter)
    (oracle : Transfer → Option ImportAction) (today : List Char) :
    List Transfer → IgnoreList → Except (List Char) IgnoreList
  | [], il => .ok il
  | tr :: rest, il =>
    match processTransfer p oracle today il tr with
    | .error e => .error e
    | .ok il2 => processTransfers p oracle today rest il2

/-- Embeds `ImportRemainingTransfers`: constructs the importer, then
processes the remaining transfers. -/
def ImportRemainingTransfers (tokenDecimals : Int) (walletAddress : List Char)
    (oracle : Transfer → Option ImportAction) (today : List Char)
    (transfers : List Transfer) (il : IgnoreList) :
    Except (List Char) IgnoreList :=
  match newTransferImporter tokenDecimals walletAddress with
  | .error e => .error e
  | .ok p => processTransfers p oracle today transfers il

/-- The five required columns of the transfer export, in the order
`parseHeader` checks them. -/
def requiredColumnNames : List (List Char) :=
  ["transaction hash".data, "from".data, "to".data, "amount".data,
   "datetime (utc)".data]

/-- The error text `requiredColumn` produces for a missing column. -/
def missingColumnError (name : List Char) (header : List (List Char)) :
    List Char :=
  "CSV is missing required column: ".data ++ name
    ++ " from available columns: [".data
    ++ List.intercalate ", ".data header ++ "]".data

/-- Value of a least-significant-digit-first digit list. -/
def valRev (l : List Char) : Nat :=
  l.foldr (fun c acc => acc * 10 + digitVal c) 0

/-- A well-formed decimal amount string: a canonically rendered integer part
and an optional fraction after a decimal point. -/
def decimalString (n : Nat) (fopt : Option (List Char)) : List Char :=
  natRepr n ++ (match fopt with | none => [] | some f => '.' :: f)

/-- The decimal string with trailing fractional zeros and a then-trailing
decimal point trimmed: the display form the round-trip law expects. -/
def trimmedDecimalString (n : Nat) (fopt : Option (List Char)) : List Char :=
  match fopt with
  | none => natRepr n
  | some f =>
    if trimTrailingZeros f = [] then natRepr n
    else natRepr n ++ '.' :: trimTrailingZeros f

/-- Base units denoted by a well-formed decimal amount string at the given
token decimals. -/
def decimalValue (n : Nat) (fopt : Option (List Char)) (d : Nat) : Nat :=
  match fopt with
  | none => n * 10 ^ d
  | some f =>
      n * 10 ^ d
        + digitsToNat (trimTrailingZeros f)
            * 10 ^ (d - (trimTrailingZeros f).length)

end TxnSync

namespace TxnSync

/-- Helper: `matchesTransfer` demands a present amount. -/
theorem matchesTransfer_amount_isSome {txn : Transaction} {address : List Char}
    {td : Details} {tr : Transfer} (h : matchesTransfer txn address td tr = true) :
    tr.amount.isSome = true := by
  unfold matchesTransfer at h
  cases htr : tr.amount with
  | none => rw [htr] at h; simp at h
  | some amt => rfl

/-- C1: for a ledger entry and a transfer satisfying the direction/address
and exact-amount rules, the matcher accepts the transfer exactly when its
execution date (calendar day, UTC) and the entry's date differ by at most one
calendar day in either direction. -/
theorem matcher_date_tolerance
    (txn : Transaction) (address : List Char) (td : Details) (tr : Transfer)
    (hdir : (if txn.amount < 0
        then lowerStr tr.fromAddress = lowerStr address
        else lowerStr tr.toAddress = lowerStr address))
    (hamt : ∃ amt, tr.amount = some amt
        ∧ expectedBaseUnits txn.amount td.decimals = amt) :
    MatchTransfers txn address (some td) [tr]
      = if (dayNumber tr.executionTime.date - dayNumber txn.date).natAbs ≤ 1
        then [tr] else [] := by
  obtain ⟨amt, hsome, hval⟩ := hamt
  unfold MatchTransfers
  have hpred : matchesTransfer txn address td tr
      = withinOneDay tr.executionTime.date txn.date := by
    unfold matchesTransfer
    rw [hsome]
    by_cases hneg : txn.amount < 0
    · simp only [if_pos hneg] at hdir ⊢
      rw [hdir, hval]
      simp
    · simp only [if_neg hneg] at hdir ⊢
      rw [hdir, hval]
      simp
  unfold withinOneDay at hpred
  by_cases hday : (dayNumber tr.executionTime.date - dayNumber txn.date).natAbs ≤ 1
  · rw [if_pos hday]
    simp [List.filter, hpred, hday]
  · rw [if_neg hday]
    simp [List.filter, hpred, hday]

/-- Witness for C1, using the spec's boundary dates: a ledger entry dated
2025-12-14 matches a transfer executed 2025-12-15T07:00:00Z (one calendar day
later) but not one executed 2025-12-16T12:00:00Z (two days later). -/
theorem matcher_date_tolerance_witness :
    MatchTransfers ⟨"e1".data, -1500, ⟨2025, 12, 14⟩, [], false⟩ "0xabc".data
        (some ⟨"USD Coin".data, 6⟩)
        [⟨"0xAbc".data, "0xother".data, some 1500000, ⟨⟨2025, 12, 15⟩, 7, 0, 0⟩,
          "0xhash-tolerance".data⟩]
      = [⟨"0xAbc".data, "0xother".data, some 1500000, ⟨⟨2025, 12, 15⟩, 7, 0, 0⟩,
          "0xhash-tolerance".data⟩]
    ∧ MatchTransfers ⟨"e1".data, -1500, ⟨2025, 12, 14⟩, [], false⟩ "0xabc".data
        (some ⟨"USD Coin".data, 6⟩)
        [⟨"0xAbc".data, "0xother".data, some 1500000, ⟨⟨2025, 12, 16⟩, 12, 0, 0⟩,
          "0xhash-2days".data⟩]
      = [] := by
  constructor
  · rw [matcher_date_tolerance _ _ _ _ (by decide) ⟨1500000, rfl, by decide⟩]
    decide
  · rw [matcher_date_tolerance _ _ _ _ (by decide) ⟨1500000, rfl, by decide⟩]
    decide

/-- C3: the matcher returns exactly the pool transfers satisfying the match
predicate, in pool order (an order-preserving sublist of the pool); the
result is empty, not an error, exactly when nothing satisfies the predicate;
and every returned transfer has a present amount (an absent amount never
matches).  The matcher is a pure function of its arguments: it performs no
mutation. -/
theorem matcher_complete_ordered
    (txn : Transaction) (address : List Char) (td : Details)
    (pool : List Transfer) :
    MatchTransfers txn address (some td) pool
        = pool.filter (matchesTransfer txn address td)
    ∧ (MatchTransfers txn address (some td) pool).Sublist pool
    ∧ (MatchTransfers txn address (some td) pool = []
        ↔ ∀ tr ∈ pool, matchesTransfer txn address td tr = false)
    ∧ ∀ tr ∈ MatchTransfers txn address (some td) pool, tr.amount.isSome = true := by
  refine ⟨rfl, List.filter_sublist pool, ?_, ?_⟩
  · rw [show MatchTransfers txn address (some td) pool
        = pool.filter (matchesTransfer txn address td) from rfl]
    rw [List.filter_eq_nil_iff]
    constructor
    · intro h tr htr
      have := h tr htr
      simpa using this
    · intro h tr htr
      simp [h tr htr]
  · intro tr htr
    rw [show MatchTransfers txn address (some td) pool
        = pool.filter (matchesTransfer txn address td) from rfl] at htr
    exact matchesTransfer_amount_isSome (List.of_mem_filter htr)

/-- Witness for C3 at a concrete pool: the matcher returns the two matching
transfers of a three-transfer pool, in pool order. -/
theorem matcher_complete_ordered_witness :
    MatchTransfers ⟨"e2".data, 2000, ⟨2025, 12, 2⟩, [], false⟩ "0xabc".data
        (some ⟨"USD Coin".data, 6⟩)
        [⟨"0xother".data, "0xabc".data, some 2000000, ⟨⟨2025, 12, 2⟩, 5, 0, 0⟩,
          "0xhash2".data⟩,
         ⟨"0xother".data, "0xabc".data, some 1999999, ⟨⟨2025, 12, 2⟩, 5, 0, 0⟩,
          "0xhash2-nonmatch".data⟩,
         ⟨"0xother".data, "0xabc".data, some 2000000, ⟨⟨2025, 12, 2⟩, 10, 0, 0⟩,
          "0xhash2-1".data⟩]
      = [⟨"0xother".data, "0xabc".data, some 2000000, ⟨⟨2025, 12, 2⟩, 5, 0, 0⟩,
          "0xhash2".data⟩,
         ⟨"0xother".data, "0xabc".data, some 2000000, ⟨⟨2025, 12, 2⟩, 10, 0, 0⟩,
          "0xhash2-1".data⟩] := by
  rw [(matcher_complete_ordered ⟨"e2".data, 2000, ⟨2025, 12, 2⟩, [], false⟩
    "0xabc".data ⟨"USD Coin".data, 6⟩ _).1]
  decide

/-- C2: when two ledger entries would each match the one transfer in the
pool, the match loop consumes it for the first entry, removes it from the
pool, and the second entry then finds zero matches: the run ends with one
matched entry, one unmatched entry, and an empty pool, and the transfer's
hash is recorded as processed for the first entry only (unless in dry-run
mode). -/
theorem match_loop_consumption
    (chooser : List Transfer → Except (List Char) (Option Transfer))
    (walletAddress : List Char) (td : Details) (dryRun : Bool)
    (today : List Char) (e1 e2 : Transaction) (t : Transfer) (il : IgnoreList)
    (h1 : matchesTransfer e1 walletAddress td t = true)
    (_h2 : matchesTransfer e2 walletAddress td t = true) :
    processUnclearedTransactions chooser walletAddress (some td) dryRun today
        [e1, e2] ⟨0, 0, [t], il⟩
      = .ok ⟨1, 1, [],
          if dryRun then il
          else AddProcessedHash il t.transactionHash e1.id today⟩ := by
  have hm1 : MatchTransfers e1 walletAddress (some td) [t] = [t] := by
    simp [MatchTransfers, List.filter, h1]
  have hrem : List.filter (fun tr => !(tr == t)) [t] = [] := by
    simp [List.filter]
  have hm2 : MatchTransfers e2 walletAddress (some td) [] = [] := by
    simp [MatchTransfers]
  unfold processUnclearedTransactions
  rw [show resolveMatchingTransfer chooser e1 walletAddress (some td) [t]
      = .ok (some t) by rw [resolveMatchingTransfer, hm1]]
  simp only [hrem]
  unfold processUnclearedTransactions
  rw [show resolveMatchingTransfer chooser e2 walletAddress (some td) []
      = .ok none by rw [resolveMatchingTransfer, hm2]]
  unfold processUnclearedTransactions
  rfl

/-- Witness for C2: two concrete uncleared entries that both match the single
concrete transfer in the pool; the run matches the first, leaves the second
unmatched, and empties the pool. -/
theorem match_loop_consumption_witness :
    processUnclearedTransactions (fun _ => .ok none) "0xabc".data
        (some ⟨"USD Coin".data, 6⟩) false "2025-12-02".data
        [⟨"txn-1".data, -1000, ⟨2025, 12, 1⟩, [], false⟩,
         ⟨"txn-2".data, -1000, ⟨2025, 12, 1⟩, [], false⟩]
        ⟨0, 0, [⟨"0xAbc".data, "0xother".data, some 1000000,
          ⟨⟨2025, 12, 1⟩, 3, 0, 0⟩, "0xhash".data⟩], ⟨[]⟩⟩
      = .ok ⟨1, 1, [],
          AddProcessedHash ⟨[]⟩ "0xhash".data "txn-1".data "2025-12-02".data⟩ := by
  rw [match_loop_consumption (fun _ => .ok none) "0xabc".data
    ⟨"USD Coin".data, 6⟩ false "2025-12-02".data
    ⟨"txn-1".data, -1000, ⟨2025, 12, 1⟩, [], false⟩
    ⟨"txn-2".data, -1000, ⟨2025, 12, 1⟩, [], false⟩
    ⟨"0xAbc".data, "0xother".data, some 1000000, ⟨⟨2025, 12, 1⟩, 3, 0, 0⟩,
      "0xhash".data⟩ ⟨[]⟩ (by decide) (by decide)]
  rfl

/-- C4 evaluated at the failing input: after `AddProcessedHash` records hash
`0xabc`, the hash is present (case-insensitively), yet a second
`AddProcessedHash` call with the same hash appends again, leaving two entries
rather than one; `AddIgnoredHash` behaves the same way.  This contradicts the
claimed no-op on duplicates (and the repository's own test expecting exactly
one entry after two calls). -/
theorem ignoreList_duplicate_insert_eval :
    IsHashIgnored
        (AddProcessedHash NewIgnoreList "0xabc".data "tx-1".data
          "2025-12-02".data) "0xABC".data = true
    ∧ GetHashCount
        (AddProcessedHash
          (AddProcessedHash NewIgnoreList "0xabc".data "tx-1".data
            "2025-12-02".data)
          "0xabc".data "tx-2".data "2025-12-02".data) = 2
    ∧ GetHashCount
        (AddIgnoredHash
          (AddIgnoredHash NewIgnoreList "0xdef".data "2025-12-02".data)
          "0xdef".data "2025-12-02".data) = 2 := by
  refine ⟨by decide, rfl, rfl⟩

/-- Helper: one more than 63 bits means magnitude at least `2 ^ 63`. -/
theorem bitLen_gt_63_iff (n : Nat) : 63 < bitLen n ↔ 2 ^ 63 ≤ n := by
  unfold bitLen
  by_cases h0 : n = 0
  · simp [h0]
  · rw [if_neg h0]
    constructor
    · intro h
      by_contra hlt
      have h' : n < 2 ^ 63 := by omega
      have := (Nat.log2_lt h0).mpr h'
      omega
    · intro h
      have hlog : ¬ Nat.log2 n < 63 := by
        intro hc
        have h' : n < 2 ^ 63 := (Nat.log2_lt h0).mp hc
        omega
      omega

/-- C9: for a non-negative base-unit amount, the conversion to the ledger
amount computes the floor of base units times 1000 over ten to the decimals,
negates exactly when outbound, and errors (never truncates) exactly when the
magnitude of the result needs more than 63 bits, returning the exact value
otherwise. -/
theorem convertToYNABAmount_spec (b d : Nat) (outbound : Bool) :
    convertToYNABAmount (b : Int) outbound (d : Int) =
      (if 2 ^ 63 ≤ (if outbound then -((b * 1000 / 10 ^ d : Nat) : Int)
          else ((b * 1000 / 10 ^ d : Nat) : Int)).natAbs then
        .error ("computed amount exceeds int64: ".data
          ++ intRepr (if outbound then -((b * 1000 / 10 ^ d : Nat) : Int)
              else ((b * 1000 / 10 ^ d : Nat) : Int)))
      else .ok (if outbound then -((b * 1000 / 10 ^ d : Nat) : Int)
          else ((b * 1000 / 10 ^ d : Nat) : Int))) := by
  have hden : goExp10 (d : Int) = ((10 ^ d : Nat) : Int) := by
    unfold goExp10
    rw [if_neg (by omega)]
    norm_num
  have hnum : ((b : Int) * 1000) = ((b * 1000 : Nat) : Int) := by push_cast; ring
  have hq : Int.tdiv ((b * 1000 : Nat) : Int) (((10 ^ d : Nat) : Int))
      = ((b * 1000 / 10 ^ d : Nat) : Int) := rfl
  unfold convertToYNABAmount
  simp only [hden, hnum, hq]
  cases outbound with
  | false =>
    simp only [Bool.false_eq_true, if_false]
    by_cases hc : 2 ^ 63 ≤ ((b * 1000 / 10 ^ d : Nat) : Int).natAbs
    · rw [if_pos ((bitLen_gt_63_iff _).mpr hc), if_pos hc]
    · rw [if_neg (fun hbl => hc ((bitLen_gt_63_iff _).mp hbl)), if_neg hc]
  | true =>
    simp only [if_true]
    by_cases hc : 2 ^ 63 ≤ (-((b * 1000 / 10 ^ d : Nat) : Int)).natAbs
    · rw [if_pos ((bitLen_gt_63_iff _).mpr hc), if_pos hc]
    · rw [if_neg (fun hbl => hc ((bitLen_gt_63_iff _).mp hbl)), if_neg hc]

/-- C10: constructing the transfer importer fails exactly when the token's
decimals are below 2 (and then the whole import-remaining step fails before
any transfer is offered, whatever the pool and the interactive oracle);
otherwise it succeeds with the dust threshold exactly ten to the
(decimals − 2). -/
theorem newTransferImporter_spec (d : Int) (wallet : List Char)
    (oracle : Transfer → Option ImportAction) (today : List Char)
    (transfers : List Transfer) (il : IgnoreList) :
    (newTransferImporter d wallet =
      if d < 2 then
        .error ("tokens with fewer than 2 decimals (".data
          ++ intRepr d ++ ") are not supported".data)
      else .ok ⟨d, 10 ^ (d - 2).toNat, wallet⟩)
    ∧ (d < 2 → ImportRemainingTransfers d wallet oracle today transfers il
        = .error ("tokens with fewer than 2 decimals (".data
            ++ intRepr d ++ ") are not supported".data)) := by
  constructor
  · unfold newTransferImporter
    by_cases h : d < 2
    · rw [if_pos h, if_pos h]
    · rw [if_neg h, if_neg h]
      have : goExp10 (d - 2) = 10 ^ (d - 2).toNat := by
        unfold goExp10
        rw [if_neg (by omega)]
      rw [this]
  · intro h
    unfold ImportRemainingTransfers newTransferImporter
    rw [if_pos h]

/-- Witness for C10: decimals 1 fail (before any transfer is offered, here
with a one-transfer pool), decimals 6 give the dust threshold 10000. -/
theorem newTransferImporter_spec_witness :
    newTransferImporter 6 "0xabc".data = .ok ⟨6, 10000, "0xabc".data⟩
    ∧ ImportRemainingTransfers 1 "0xabc".data (fun _ => some ImportAction.skip)
        "2025-12-02".data
        [⟨"0xAbc".data, "0xother".data, some 1000000,
          ⟨⟨2025, 12, 1⟩, 3, 0, 0⟩, "0xhash".data⟩] ⟨[]⟩
      = .error ("tokens with fewer than 2 decimals (".data
          ++ intRepr 1 ++ ") are not supported".data) := by
  constructor
  · rw [(newTransferImporter_spec 6 "0xabc".data (fun _ => some ImportAction.skip)
      "2025-12-02".data [] ⟨[]⟩).1]
    rfl
  · rw [(newTransferImporter_spec 1 "0xabc".data (fun _ => some ImportAction.skip)
      "2025-12-02".data
      [⟨"0xAbc".data, "0xother".data, some 1000000,
        ⟨⟨2025, 12, 1⟩, 3, 0, 0⟩, "0xhash".data⟩] ⟨[]⟩).2 (by decide)]

/-- C7: a transfer export whose header lacks a required column (matched
case-insensitively after trimming whitespace) fails before processing any
row — the rows are arbitrary and unexamined — with an error naming the first
missing column in check order and listing the columns that were found. -/
theorem missing_column_fails_before_rows (header : List (List Char))
    (rows : List (List (List Char))) (td : Details) (m : List Char)
    (hm : requiredColumnNames.find? (fun n => (headerIndex header n).isNone)
        = some m) :
    TransfersFromEtherscanCSV td (header :: rows)
      = .error (missingColumnError m header) := by
  unfold requiredColumnNames at hm
  have hgoal : parseHeader header = .error (missingColumnError m header) := by
    unfold parseHeader requiredColumn
    cases h1 : headerIndex header "transaction hash".data with
    | none =>
      rw [List.find?_cons_of_pos _ (by simp [h1])] at hm
      rw [Option.some_inj] at hm
      rw [hm]
      rfl
    | some i1 =>
      rw [List.find?_cons_of_neg _ (by simp [h1])] at hm
      cases h2 : headerIndex header "from".data with
      | none =>
        rw [List.find?_cons_of_pos _ (by simp [h2])] at hm
        rw [Option.some_inj] at hm
        rw [hm]
        rfl
      | some i2 =>
        rw [List.find?_cons_of_neg _ (by simp [h2])] at hm
        cases h3 : headerIndex header "to".data with
        | none =>
          rw [List.find?_cons_of_pos _ (by simp [h3])] at hm
          rw [Option.some_inj] at hm
          rw [hm]
          rfl
        | some i3 =>
          rw [List.find?_cons_of_neg _ (by simp [h3])] at hm
          cases h4 : headerIndex header "amount".data with
          | none =>
            rw [List.find?_cons_of_pos _ (by simp [h4])] at hm
            rw [Option.some_inj] at hm
            rw [hm]
            rfl
          | some i4 =>
            rw [List.find?_cons_of_neg _ (by simp [h4])] at hm
            cases h5 : headerIndex header "datetime (utc)".data with
            | none =>
              rw [List.find?_cons_of_pos _ (by simp [h5])] at hm
              rw [Option.some_inj] at hm
              rw [hm]
              rfl
            | some i5 =>
              rw [List.find?_cons_of_neg _ (by simp [h5])] at hm
              simp at hm
  show (match parseHeader header with
    | .error e => .error e
    | .ok (txIdx, fromIdx, toIdx, amountIdx, timeIdx) =>
        parseTransferRows txIdx fromIdx toIdx amountIdx timeIdx td rows [])
      = Except.error (missingColumnError m header)
  rw [hgoal]

/-- Witness for C7 (the spec's scenario): an export lacking the From column;
the parse fails with the error naming it and listing the found columns, for
a non-empty row list that is never examined. -/
theorem missing_column_fails_before_rows_witness :
    TransfersFromEtherscanCSV ⟨"USD Coin".data, 6⟩
        [["Transaction Hash".data, "To".data, "Amount".data,
          "DateTime (UTC)".data],
         ["0xhash".data, "0xto".data, "1000000".data,
          "2025-12-10 11:53:23".data]]
      = .error (missingColumnError "from".data
          ["Transaction Hash".data, "To".data, "Amount".data,
           "DateTime (UTC)".data]) := by
  rw [missing_column_fails_before_rows
    ["Transaction Hash".data, "To".data, "Amount".data, "DateTime (UTC)".data]
    [["0xhash".data, "0xto".data, "1000000".data, "2025-12-10 11:53:23".data]]
    ⟨"USD Coin".data, 6⟩ "from".data (by decide)]

/-- Helper: a digit character's numeric value is below ten. -/
theorem digitVal_lt_ten {c : Char} (h : isDigitChar c = true) : digitVal c < 10 := by
  unfold isDigitChar at h
  simp only [Bool.and_eq_true, decide_eq_true_eq] at h
  unfold digitVal
  omega

/-- Helper: characters with equal code points are equal. -/
theorem charToNat_inj {c d : Char} (h : c.toNat = d.toNat) : c = d := by
  rw [← Char.ofNat_toNat c, ← Char.ofNat_toNat d, h]

/-- Helper: `digitVal` inverts `digitChar` below ten. -/
theorem digitVal_digitChar {m : Nat} (h : m < 10) : digitVal (digitChar m) = m := by
  interval_cases m <;> rfl

/-- Helper: `digitChar` yields digit characters below ten. -/
theorem isDigitChar_digitChar {m : Nat} (h : m < 10) :
    isDigitChar (digitChar m) = true := by
  interval_cases m <;> rfl

/-- Helper: `digitChar` inverts `digitVal` on digit characters. -/
theorem digitChar_digitVal {c : Char} (h : isDigitChar c = true) :
    digitChar (digitVal c) = c := by
  unfold isDigitChar at h
  simp only [Bool.and_eq_true, decide_eq_true_eq] at h
  have hv : 48 + digitVal c = c.toNat := by unfold digitVal; omega
  unfold digitChar
  rw [hv]
  exact Char.ofNat_toNat c

/-- Helper: digit characters are not separators or signs; spelled out for
the parser proofs. -/
theorem isDigitChar_ne {c : Char} (h : isDigitChar c = true) :
    c ≠ '.' ∧ c ≠ ',' ∧ c ≠ '_' ∧ c ≠ ' ' ∧ c ≠ '+' ∧ c ≠ '-' := by
  unfold isDigitChar at h
  simp only [Bool.and_eq_true, decide_eq_true_eq] at h
  refine ⟨?_, ?_, ?_, ?_, ?_, ?_⟩ <;>
    · intro hc
      rw [hc] at h
      simp at h

/-- Helper: most-significant-first evaluation is least-significant-first
evaluation of the reverse. -/
theorem digitsToNat_reverse (l : List Char) : digitsToNat l.reverse = valRev l := by
  unfold digitsToNat valRev
  exact List.foldl_reverse ..

/-- Helper: the fuelled digit expansion evaluates back to its input. -/
theorem valRev_natDigitsRevFuel {fuel n : Nat} (h : n < fuel) :
    valRev (natDigitsRevFuel fuel n) = n := by
  induction fuel generalizing n with
  | zero => omega
  | succ fuel ih =>
    unfold natDigitsRevFuel
    by_cases h0 : n = 0
    · rw [if_pos h0, h0]; rfl
    · rw [if_neg h0]
      have hdiv : n / 10 < fuel := by
        have := Nat.div_lt_self (Nat.pos_of_ne_zero h0) (by norm_num : (1:Nat) < 10)
        omega
      unfold valRev
      simp only [List.foldr_cons]
      have hr : (natDigitsRevFuel fuel (n / 10)).foldr
          (fun c acc => acc * 10 + digitVal c) 0 = n / 10 := ih hdiv
      rw [hr, digitVal_digitChar (Nat.mod_lt n (by norm_num))]
      omega

/-- Helper: `natRepr` evaluates back to its input. -/
theorem digitsToNat_natRepr (n : Nat) : digitsToNat (natRepr n) = n := by
  unfold natRepr
  by_cases h0 : n = 0
  · rw [if_pos h0, h0]; rfl
  · rw [if_neg h0, digitsToNat_reverse]
    exact valRev_natDigitsRevFuel (Nat.lt_succ_self n)

/-- Helper: the fuelled digit expansion yields digit characters. -/
theorem natDigitsRevFuel_all_digits (fuel n : Nat) :
    (natDigitsRevFuel fuel n).all isDigitChar = true := by
  induction fuel generalizing n with
  | zero => rfl
  | succ fuel ih =>
    unfold natDigitsRevFuel
    by_cases h0 : n = 0
    · rw [if_pos h0]; rfl
    · rw [if_neg h0]
      simp only [List.all_cons, Bool.and_eq_true]
      exact ⟨isDigitChar_digitChar (Nat.mod_lt n (by norm_num)), ih _⟩

/-- Helper: `natRepr` yields digit characters. -/
theorem natRepr_all_digits (n : Nat) : (natRepr n).all isDigitChar = true := by
  unfold natRepr
  by_cases h0 : n = 0
  · rw [if_pos h0]; rfl
  · rw [if_neg h0, List.all_reverse]
    exact natDigitsRevFuel_all_digits _ _

/-- Helper: `natRepr` is never empty. -/
theorem natRepr_ne_nil (n : Nat) : natRepr n ≠ [] := by
  unfold natRepr
  by_cases h0 : n = 0
  · rw [if_pos h0]; simp
  · rw [if_neg h0]
    unfold natDigitsRevFuel
    rw [if_neg h0]
    simp

/-- Helper: the fuelled digit expansion of `n < 10 ^ k` has at most `k`
digits. -/
theorem natDigitsRevFuel_length_le {fuel n k : Nat} (hn : n < fuel)
    (hk : n < 10 ^ k) : (natDigitsRevFuel fuel n).length ≤ k := by
  induction fuel generalizing n k with
  | zero => omega
  | succ fuel ih =>
    unfold natDigitsRevFuel
    by_cases h0 : n = 0
    · rw [if_pos h0]; simp
    · rw [if_neg h0]
      cases k with
      | zero =>
        simp only [pow_zero] at hk
        omega
      | succ k =>
        simp only [List.length_cons]
        have hdiv : n / 10 < fuel := by
          have := Nat.div_lt_self (Nat.pos_of_ne_zero h0) (by norm_num : (1:Nat) < 10)
          omega
        have hk' : n / 10 < 10 ^ k := by
          rw [Nat.div_lt_iff_lt_mul (by norm_num : (0:Nat) < 10)]
          calc n < 10 ^ (k + 1) := hk
            _ = 10 ^ k * 10 := by ring
        have := ih hdiv hk'
        omega

/-- Helper: `natRepr` of `n < 10 ^ k` has at most `k` digits (for positive
`k`). -/
theorem natRepr_length_le {n k : Nat} (hk : 0 < k) (h : n < 10 ^ k) :
    (natRepr n).length ≤ k := by
  unfold natRepr
  by_cases h0 : n = 0
  · rw [if_pos h0]; simpa using hk
  · rw [if_neg h0, List.length_reverse]
    exact natDigitsRevFuel_length_le (Nat.lt_succ_self n) h

/-- Helper: evaluating digits from an arbitrary accumulator. -/
theorem digitsToNat_foldl (l : List Char) (a : Nat) :
    l.foldl (fun acc c => acc * 10 + digitVal c) a
      = a * 10 ^ l.length + digitsToNat l := by
  induction l generalizing a with
  | nil => simp [digitsToNat]
  | cons c t ih =>
    simp only [List.foldl_cons, List.length_cons]
    have hcons : digitsToNat (c :: t) = digitVal c * 10 ^ t.length + digitsToNat t := by
      show t.foldl (fun acc c => acc * 10 + digitVal c) (0 * 10 + digitVal c) = _
      rw [ih (0 * 10 + digitVal c)]
      ring
    rw [ih (a * 10 + digitVal c), hcons]
    ring

/-- Helper: head digit contributes its value at the most significant
position. -/
theorem digitsToNat_cons (c : Char) (t : List Char) :
    digitsToNat (c :: t) = digitVal c * 10 ^ t.length + digitsToNat t := by
  show t.foldl (fun acc c => acc * 10 + digitVal c) (0 * 10 + digitVal c) = _
  rw [digitsToNat_foldl]
  ring

/-- Helper: evaluation of an appended digit string. -/
theorem digitsToNat_append (l1 l2 : List Char) :
    digitsToNat (l1 ++ l2) = digitsToNat l1 * 10 ^ l2.length + digitsToNat l2 := by
  show (l1 ++ l2).foldl (fun acc c => acc * 10 + digitVal c) 0 = _
  rw [List.foldl_append]
  exact digitsToNat_foldl l2 _

/-- Helper: a digit string's value is below ten to its length. -/
theorem digitsToNat_lt (l : List Char) (h : l.all isDigitChar = true) :
    digitsToNat l < 10 ^ l.length := by
  induction l with
  | nil => simp [digitsToNat]
  | cons c t ih =>
    simp only [List.all_cons, Bool.and_eq_true] at h
    rw [digitsToNat_cons]
    have h1 : digitVal c < 10 := digitVal_lt_ten h.1
    have h2 := ih h.2
    simp only [List.length_cons]
    calc digitVal c * 10 ^ t.length + digitsToNat t
        < digitVal c * 10 ^ t.length + 10 ^ t.length := by omega
      _ = (digitVal c + 1) * 10 ^ t.length := by ring
      _ ≤ 10 * 10 ^ t.length := Nat.mul_le_mul_right _ (by omega)
      _ = 10 ^ (t.length + 1) := by ring

/-- Helper: a run of zero characters evaluates to zero. -/
theorem digitsToNat_replicate_zero (k : Nat) :
    digitsToNat (List.replicate k '0') = 0 := by
  induction k with
  | zero => rfl
  | succ k ih =>
    rw [List.replicate_succ, digitsToNat_cons, ih]
    simp [digitVal]

/-- Helper: a run of zero characters is all digits. -/
theorem replicate_zero_all_digits (k : Nat) :
    (List.replicate k '0').all isDigitChar = true := by
  induction k with
  | zero => rfl
  | succ k ih =>
    rw [List.replicate_succ, List.all_cons, ih]
    rfl

/-- Helper: two digit strings of equal length with equal value are equal. -/
theorem digitsToNat_inj {l1 l2 : List Char} (h1 : l1.all isDigitChar = true)
    (h2 : l2.all isDigitChar = true) (hlen : l1.length = l2.length)
    (hval : digitsToNat l1 = digitsToNat l2) : l1 = l2 := by
  induction l1 generalizing l2 with
  | nil =>
    cases l2 with
    | nil => rfl
    | cons c t => simp at hlen
  | cons c1 t1 ih =>
    cases l2 with
    | nil => simp at hlen
    | cons c2 t2 =>
      simp only [List.all_cons, Bool.and_eq_true] at h1 h2
      simp only [List.length_cons] at hlen
      have hlen' : t1.length = t2.length := by omega
      rw [digitsToNat_cons, digitsToNat_cons, hlen'] at hval
      have hb1 : digitsToNat t1 < 10 ^ t2.length := by
        rw [← hlen']; exact digitsToNat_lt t1 h1.2
      have hb2 : digitsToNat t2 < 10 ^ t2.length := digitsToNat_lt t2 h2.2
      have hB : 0 < 10 ^ t2.length := by positivity
      have hv : digitVal c1 = digitVal c2 := by
        have e1 : (digitVal c1 * 10 ^ t2.length + digitsToNat t1) / 10 ^ t2.length
            = digitVal c1 := by
          rw [mul_comm, Nat.mul_add_div hB, Nat.div_eq_of_lt hb1, Nat.add_zero]
        have e2 : (digitVal c2 * 10 ^ t2.length + digitsToNat t2) / 10 ^ t2.length
            = digitVal c2 := by
          rw [mul_comm, Nat.mul_add_div hB, Nat.div_eq_of_lt hb2, Nat.add_zero]
        rw [← e1, ← e2, hval]
      have hc : c1 = c2 := by
        rw [← digitChar_digitVal h1.1, ← digitChar_digitVal h2.1, hv]
      have hval' : digitsToNat t1 = digitsToNat t2 := by
        rw [hv] at hval
        omega
      rw [hc, ih h1.2 h2.2 hlen' hval']

/-- Helper: a non-empty digit string is its value's canonical rendering
padded with leading zeros to its own length. -/
theorem padLeft_natRepr_eq (l : List Char) (h : l.all isDigitChar = true)
    (hne : l ≠ []) : padLeftZeros (natRepr (digitsToNat l)) l.length = l := by
  have hlt : digitsToNat l < 10 ^ l.length := digitsToNat_lt l h
  have hpos : 0 < l.length := List.length_pos.mpr hne
  have hlen : (natRepr (digitsToNat l)).length ≤ l.length :=
    natRepr_length_le hpos hlt
  apply digitsToNat_inj
  · unfold padLeftZeros
    rw [List.all_append, replicate_zero_all_digits, natRepr_all_digits]
    rfl
  · exact h
  · unfold padLeftZeros
    rw [List.length_append, List.length_replicate]
    omega
  · unfold padLeftZeros
    rw [digitsToNat_append, digitsToNat_replicate_zero, digitsToNat_natRepr]
    simp

/-- Helper: the trim of a string, reversed, is the reverse with leading
zeros dropped. -/
theorem trim_reverse (f : List Char) :
    (trimTrailingZeros f).reverse = f.reverse.dropWhile (fun c => c == '0') := by
  unfold trimTrailingZeros
  rw [List.reverse_reverse]

/-- Helper: a string is its trim followed by a run of zeros. -/
theorem trimTrailingZeros_append_replicate (f : List Char) :
    ∃ k, f = trimTrailingZeros f ++ List.replicate k '0' := by
  refine ⟨(f.reverse.takeWhile (fun c => c == '0')).length, ?_⟩
  have hsplit : f.reverse.takeWhile (fun c => c == '0')
      ++ f.reverse.dropWhile (fun c => c == '0') = f.reverse :=
    List.takeWhile_append_dropWhile ..
  have htrim : trimTrailingZeros f
      = (f.reverse.dropWhile (fun c => c == '0')).reverse := rfl
  have htake : (f.reverse.takeWhile (fun c => c == '0')).reverse
      = List.replicate (f.reverse.takeWhile (fun c => c == '0')).length '0' := by
    have hrep : f.reverse.takeWhile (fun c => c == '0')
        = List.replicate (f.reverse.takeWhile (fun c => c == '0')).length '0' := by
      apply List.eq_replicate_of_mem
      intro b hb
      have := List.mem_takeWhile_imp hb
      simpa using this
    conv_lhs => rw [hrep]
    rw [List.reverse_replicate]
  calc f = f.reverse.reverse := (List.reverse_reverse f).symm
    _ = (f.reverse.takeWhile (fun c => c == '0')
        ++ f.reverse.dropWhile (fun c => c == '0')).reverse := by rw [hsplit]
    _ = (f.reverse.dropWhile (fun c => c == '0')).reverse
        ++ (f.reverse.takeWhile (fun c => c == '0')).reverse :=
          List.reverse_append ..
    _ = trimTrailingZeros f
        ++ List.replicate (f.reverse.takeWhile (fun c => c == '0')).length '0' := by
          rw [htrim, htake]

/-- Helper: trimming preserves the digit-character property. -/
theorem trimTrailingZeros_all_digits {f : List Char}
    (h : f.all isDigitChar = true) :
    (trimTrailingZeros f).all isDigitChar = true := by
  rw [List.all_eq_true] at h ⊢
  intro c hc
  apply h
  unfold trimTrailingZeros at hc
  rw [List.mem_reverse] at hc
  have := (List.dropWhile_sublist (fun c : Char => c == '0')).subset hc
  rwa [List.mem_reverse] at this

/-- Helper: the element a `dropWhile` stops at fails the predicate. -/
theorem dropWhile_head_false {p : Char → Bool} (l : List Char) {c : Char}
    {rest : List Char} (h : l.dropWhile p = c :: rest) : p c = false := by
  induction l with
  | nil => simp at h
  | cons a t ih =>
    rw [List.dropWhile_cons] at h
    by_cases hp : p a = true
    · rw [if_pos hp] at h
      exact ih h
    · rw [if_neg hp] at h
      have ha : a = c := (List.cons.inj h).1
      cases hpa : p c with
      | false => rfl
      | true =>
        rw [← ha] at hpa
        exact absurd hpa hp

/-- Helper: a non-empty trimmed digit string, reversed, starts with a
non-zero digit, and its value is positive. -/
theorem trimmed_decomp {f : List Char} (hf : f.all isDigitChar = true)
    (hne : trimTrailingZeros f ≠ []) :
    ∃ c rest, (trimTrailingZeros f).reverse = c :: rest
      ∧ isDigitChar c = true ∧ (c == '0') = false
      ∧ 0 < digitsToNat (trimTrailingZeros f) := by
  have hrev := trim_reverse f
  have hrne : (trimTrailingZeros f).reverse ≠ [] := by
    simpa using hne
  obtain ⟨c, rest, hD⟩ : ∃ c rest, (trimTrailingZeros f).reverse = c :: rest := by
    cases hq : (trimTrailingZeros f).reverse with
    | nil => exact absurd hq hrne
    | cons c rest => exact ⟨c, rest, rfl⟩
  have hcd : isDigitChar c = true := by
    have hmem : c ∈ trimTrailingZeros f := by
      rw [← List.mem_reverse, hD]
      simp
    have hall := trimTrailingZeros_all_digits hf
    rw [List.all_eq_true] at hall
    exact hall c hmem
  have hhead : (c == '0') = false := by
    have hD' : f.reverse.dropWhile (fun c => c == '0') = c :: rest := by
      rw [← hrev, hD]
    exact @dropWhile_head_false (fun c => c == '0') f.reverse c rest hD'
  refine ⟨c, rest, hD, hcd, hhead, ?_⟩
  have hdec : trimTrailingZeros f = rest.reverse ++ [c] := by
    have hq : (trimTrailingZeros f).reverse.reverse = (c :: rest).reverse := by
      rw [hD]
    rwa [List.reverse_reverse, List.reverse_cons] at hq
  rw [hdec, digitsToNat_append]
  have hone : digitsToNat [c] = digitVal c := by
    show 0 * 10 + digitVal c = digitVal c
    omega
  rw [hone]
  have hpos : 0 < digitVal c := by
    unfold isDigitChar at hcd
    simp only [Bool.and_eq_true, decide_eq_true_eq] at hcd
    have hcz : c.toNat ≠ 48 := by
      intro hz
      apply absurd hhead
      simp only [Bool.not_eq_false, beq_iff_eq]
      apply charToNat_inj
      rw [hz]
      rfl
    unfold digitVal
    omega
  omega

/-- Helper: taking and dropping up to a marked element of an appended
list. -/
theorem takeWhile_dropWhile_marked {p : Char → Bool} {l1 : List Char}
    (h : l1.all p = true) {x : Char} (hx : p x = false) (l2 : List Char) :
    (l1 ++ x :: l2).takeWhile p = l1 ∧ (l1 ++ x :: l2).dropWhile p = x :: l2 := by
  induction l1 with
  | nil =>
    constructor
    · show (x :: l2).takeWhile p = []
      rw [List.takeWhile_cons, hx]
      rfl
    · show (x :: l2).dropWhile p = x :: l2
      rw [List.dropWhile_cons, hx]
      rfl
  | cons c t ih =>
    simp only [List.all_cons, Bool.and_eq_true] at h
    have := ih h.2
    constructor
    · show ((c :: (t ++ x :: l2)).takeWhile p) = c :: t
      rw [List.takeWhile_cons, h.1, this.1]
      rfl
    · show ((c :: (t ++ x :: l2)).dropWhile p) = x :: l2
      rw [List.dropWhile_cons, h.1, this.2]
      rfl

/-- Helper: the Go trailing-zero trim loop acting on a reversed rendering
with an interior decimal point: the zeros before the point are dropped, the
point and everything beyond are kept. -/
theorem trimZerosGoRev_append_dot (l1 l3 : List Char) :
    trimZerosGoRev (l1 ++ '.' :: l3)
      = l1.dropWhile (fun c => c == '0') ++ '.' :: l3 := by
  induction l1 with
  | nil =>
    cases l3 with
    | nil => rfl
    | cons c t => rfl
  | cons c t ih =>
    obtain ⟨a, as, hsh⟩ : ∃ a as, t ++ '.' :: l3 = a :: as := by
      cases hq : t ++ '.' :: l3 with
      | nil => simp at hq
      | cons a as => exact ⟨a, as, rfl⟩
    have hstep : trimZerosGoRev ((c :: t) ++ '.' :: l3)
        = if c == '0' then trimZerosGoRev (t ++ '.' :: l3)
          else c :: (t ++ '.' :: l3) := by
      show trimZerosGoRev (c :: (t ++ '.' :: l3)) = _
      rw [hsh]
      rfl
    rw [hstep]
    by_cases hc : (c == '0') = true
    · rw [if_pos hc, ih]
      show _ = List.dropWhile (fun c => c == '0') (c :: t) ++ '.' :: l3
      rw [List.dropWhile_cons, if_pos hc]
    · rw [if_neg hc]
      show _ = List.dropWhile (fun c => c == '0') (c :: t) ++ '.' :: l3
      rw [List.dropWhile_cons, if_neg hc]
      rfl

/-- Helper: the Go trim loop drops a pure run of zeros down to its final
character. -/
theorem trimZerosGoRev_replicate_zero (k : Nat) (hk : 0 < k) :
    trimZerosGoRev (List.replicate k '0') = ['0'] := by
  induction k with
  | zero => omega
  | succ k ih =>
    cases k with
    | zero => rfl
    | succ k' =>
      have hstep : trimZerosGoRev (List.replicate (k' + 1 + 1) '0')
          = trimZerosGoRev (List.replicate (k' + 1) '0') := rfl
      rw [hstep]
      exact ih (by omega)

/-- Helper: `goExp10` of a natural exponent is ten to that power. -/
theorem goExp10_natCast (d : Nat) : goExp10 (d : Int) = ((10 ^ d : Nat) : Int) := by
  unfold goExp10
  rw [if_neg (by omega)]
  norm_num

/-- Helper: a non-empty list is not `isEmpty`. -/
theorem isEmpty_false_of_ne_nil {l : List Char} (h : l ≠ []) :
    l.isEmpty = false := by
  cases l with
  | nil => exact absurd rfl h
  | cons c t => rfl

/-- Helper: sanitizing leaves a pure digit string unchanged. -/
theorem sanitizeSeparators_all_digits {l : List Char}
    (h : l.all isDigitChar = true) : sanitizeSeparators l = l := by
  unfold sanitizeSeparators
  apply List.filter_eq_self.mpr
  intro c hc
  rw [List.all_eq_true] at h
  have hd := isDigitChar_ne (h c hc)
  simp only [Bool.and_eq_true, Bool.not_eq_true']
  refine ⟨⟨?_, ?_⟩, ?_⟩ <;>
    · rw [beq_eq_false_iff_ne]
      tauto

/-- Helper: `SetString` accepts a non-empty pure digit string. -/
theorem setStringBase10_digits {l : List Char} (h : l.all isDigitChar = true)
    (hne : l ≠ []) : setStringBase10 l = some ((digitsToNat l : Nat) : Int) := by
  cases l with
  | nil => exact absurd rfl hne
  | cons c t =>
    have h' := h
    simp only [List.all_cons, Bool.and_eq_true] at h'
    have hd := isDigitChar_ne h'.1
    have hplus : (c == '+') = false := beq_eq_false_iff_ne.mpr hd.2.2.2.2.1
    have hminus : (c == '-') = false := beq_eq_false_iff_ne.mpr hd.2.2.2.2.2
    show (if (c == '+') = true then
        (if (t.isEmpty || !t.all isDigitChar) = true then none
         else some ((digitsToNat t : Nat) : Int))
      else if (c == '-') = true then
        (if (t.isEmpty || !t.all isDigitChar) = true then none
         else some (-((digitsToNat t : Nat) : Int)))
      else if (c :: t).all isDigitChar = true then
        some ((digitsToNat (c :: t) : Nat) : Int)
      else none)
      = some ((digitsToNat (c :: t) : Nat) : Int)
    rw [hplus, hminus]
    simp only [Bool.false_eq_true, if_false]
    rw [if_pos h]

/-- Helper: `BigIntFromString` parses a non-empty pure digit string to its
value. -/
theorem bigIntFromString_digits {l : List Char} (h : l.all isDigitChar = true)
    (hne : l ≠ []) : BigIntFromString l = .ok ((digitsToNat l : Nat) : Int) := by
  unfold BigIntFromString
  rw [sanitizeSeparators_all_digits h, setStringBase10_digits h hne]

/-- Helper: `BigIntFromString` parses a canonical rendering back to its
value. -/
theorem bigIntFromString_natRepr (n : Nat) :
    BigIntFromString (natRepr n) = .ok ((n : Nat) : Int) := by
  rw [bigIntFromString_digits (natRepr_all_digits n) (natRepr_ne_nil n),
    digitsToNat_natRepr]

/-- Helper: a pure digit string contains no decimal point. -/
theorem contains_dot_eq_false {l : List Char} (h : l.all isDigitChar = true) :
    l.contains '.' = false := by
  induction l with
  | nil => rfl
  | cons c t ih =>
    simp only [List.all_cons, Bool.and_eq_true] at h
    rw [List.contains_cons, ih h.2]
    have : ('.' == c) = false :=
      beq_eq_false_iff_ne.mpr (Ne.symm (isDigitChar_ne h.1).1)
    rw [this]
    rfl

/-- Helper: a string with a decimal point contains one. -/
theorem contains_dot_append (l1 l2 : List Char) :
    (l1 ++ '.' :: l2).contains '.' = true := by
  have hmem : '.' ∈ l1 ++ '.' :: l2 := by simp
  simp [List.elem_iff, hmem]

/-- Helper: dropping zeros through a run of zeros. -/
theorem dropWhile_zeros_replicate_append (k : Nat) (l : List Char) :
    (List.replicate k '0' ++ l).dropWhile (fun c => c == '0')
      = l.dropWhile (fun c => c == '0') := by
  induction k with
  | zero => rfl
  | succ k ih =>
    rw [List.replicate_succ, List.cons_append, List.dropWhile_cons]
    simp only [beq_self_eq_true, if_true]
    exact ih

/-- Helper: a run of zeros drops entirely. -/
theorem dropWhile_zeros_replicate (k : Nat) :
    (List.replicate k '0').dropWhile (fun c => c == '0') = [] := by
  have h := dropWhile_zeros_replicate_append k ([] : List Char)
  rwa [List.append_nil] at h

/-- Helper: a canonical rendering has no decimal point anywhere. -/
theorem natRepr_all_not_dot (n : Nat) :
    (natRepr n).all (fun c => !(c == '.')) = true := by
  rw [List.all_eq_true]
  intro c hcmem
  have hdall := natRepr_all_digits n
  rw [List.all_eq_true] at hdall
  have hne := (isDigitChar_ne (hdall c hcmem)).1
  simp [hne]

/-- Helper: splitting a well-formed decimal string at its point. -/
theorem splitOnFirstDot_decimalString (n : Nat) (f : List Char) :
    splitOnFirstDot (natRepr n ++ '.' :: f) = (natRepr n, f) := by
  unfold splitOnFirstDot
  have hx : (fun c => !(c == '.')) '.' = false := rfl
  rw [(takeWhile_dropWhile_marked (natRepr_all_not_dot n) hx f).1,
    (takeWhile_dropWhile_marked (natRepr_all_not_dot n) hx f).2]
  rfl

/-- Helper: `splitAmountParts` on a dotless canonical integer. -/
theorem splitAmountParts_natRepr (n : Nat) (txHash : List Char) :
    splitAmountParts (natRepr n) txHash = .ok (((n : Nat) : Int), 0, 0) := by
  unfold splitAmountParts
  have hc : (!(natRepr n).contains '.') = true := by
    rw [contains_dot_eq_false (natRepr_all_digits n)]
    rfl
  rw [if_pos hc, bigIntFromString_natRepr n]

/-- Helper: `splitAmountParts` on a well-formed dotted decimal string:
whole part, trimmed fraction value, trimmed fraction length. -/
theorem splitAmountParts_decimalString (n : Nat) (f : List Char)
    (txHash : List Char) (hdig : f.all isDigitChar = true) :
    splitAmountParts (natRepr n ++ '.' :: f) txHash
      = .ok (((n : Nat) : Int),
          ((digitsToNat (trimTrailingZeros f) : Nat) : Int),
          (trimTrailingZeros f).length) := by
  unfold splitAmountParts
  rw [if_neg (by rw [contains_dot_append]; simp)]
  by_cases htr : trimTrailingZeros f = []
  · simp only [splitOnFirstDot_decimalString, bigIntFromString_natRepr, htr]
    simp [digitsToNat]
  · have hL : 0 < (trimTrailingZeros f).length := List.length_pos.mpr htr
    simp only [splitOnFirstDot_decimalString, bigIntFromString_natRepr,
      bigIntFromString_digits (trimTrailingZeros_all_digits hdig) htr, hL,
      if_true]

/-- Helper: the whole-token expansion of `parseAmount`, closed form. -/
theorem parseAmount_total_eq (n d : Nat) :
    (if 0 < ((n : Nat) : Int) then ((n : Nat) : Int) * goExp10 (d : Int) else 0)
      = ((n * 10 ^ d : Nat) : Int) := by
  by_cases hn : 0 < n
  · rw [if_pos (by exact_mod_cast hn), goExp10_natCast]
    push_cast
    ring
  · have hn0 : n = 0 := by omega
    rw [hn0]
    simp

/-- Helper: `parseAmount` accepts a dotless canonical integer. -/
theorem parseAmount_natRepr (n d : Nat) (txHash : List Char) :
    parseAmount (natRepr n) (d : Int) txHash = .ok ((n * 10 ^ d : Nat) : Int) := by
  unfold parseAmount
  rw [if_neg (by rw [isEmpty_false_of_ne_nil (natRepr_ne_nil n)]; simp)]
  simp only [splitAmountParts_natRepr]
  unfold parseAmountFromParts
  rw [if_neg (show ¬ ((0 : Int) < 0) by omega)]
  rw [parseAmount_total_eq n d]

/-- Helper: `parseAmount` accepts a well-formed dotted decimal string whose
trimmed fraction fits in the token's decimals, computing its base units. -/
theorem parseAmount_decimalString (n : Nat) (f : List Char) (d : Nat)
    (txHash : List Char) (hdig : f.all isDigitChar = true)
    (hlen : (trimTrailingZeros f).length ≤ d) :
    parseAmount (natRepr n ++ '.' :: f) (d : Int) txHash
      = .ok ((n * 10 ^ d
          + digitsToNat (trimTrailingZeros f)
              * 10 ^ (d - (trimTrailingZeros f).length) : Nat) : Int) := by
  unfold parseAmount
  have hne : (natRepr n ++ '.' :: f) ≠ [] := by simp
  rw [if_neg (by rw [isEmpty_false_of_ne_nil hne]; simp)]
  simp only [splitAmountParts_decimalString n f txHash hdig]
  unfold parseAmountFromParts
  by_cases htr : trimTrailingZeros f = []
  · rw [htr]
    rw [if_neg (show ¬ ((0 : Int) < ((digitsToNat ([] : List Char) : Nat) : Int))
      by simp [digitsToNat])]
    rw [parseAmount_total_eq n d]
    simp [digitsToNat]
  · obtain ⟨c, rest, hD, hcd, hc0, hpos⟩ := trimmed_decomp hdig htr
    have hfv : (0 : Int) < ((digitsToNat (trimTrailingZeros f) : Nat) : Int) := by
      exact_mod_cast hpos
    rw [if_pos hfv]
    have hexp : ¬ ((d : Int) - (((trimTrailingZeros f).length : Nat) : Int) < 0) := by
      omega
    rw [if_neg hexp]
    have hgoexp : goExp10 ((d : Int) - (((trimTrailingZeros f).length : Nat) : Int))
        = ((10 ^ (d - (trimTrailingZeros f).length) : Nat) : Int) := by
      unfold goExp10
      rw [if_neg (by omega)]
      rw [Int.toNat_sub]
      norm_num
    rw [parseAmount_total_eq n d, hgoexp]
    push_cast
    ring_nf

/-- Helper: the fraction field of a value below one whole unit scaled into
place stays below ten to the decimals. -/
theorem frac_scaled_lt {trimmed : List Char} {d : Nat}
    (htr : trimmed.all isDigitChar = true) (hL : trimmed.length ≤ d) :
    digitsToNat trimmed * 10 ^ (d - trimmed.length) < 10 ^ d := by
  have hfv : digitsToNat trimmed < 10 ^ trimmed.length := digitsToNat_lt trimmed htr
  have hpow : 10 ^ trimmed.length * 10 ^ (d - trimmed.length) = 10 ^ d := by
    rw [← pow_add]
    congr 1
    omega
  calc digitsToNat trimmed * 10 ^ (d - trimmed.length)
      < 10 ^ trimmed.length * 10 ^ (d - trimmed.length) :=
        (Nat.mul_lt_mul_right (by positivity)).mpr hfv
    _ = 10 ^ d := hpow

/-- Helper: the exact fixed-point rendering of `n` wholes and a trimmed
fraction, after the Go trim loop, is the expected display string. -/
theorem formatAmount_of_parts (n d : Nat) (trimmed : List Char)
    (hd : 1 ≤ d) (hL : trimmed.length ≤ d)
    (htr : trimmed.all isDigitChar = true)
    (hlast : trimmed = []
      ∨ ∃ c rest, trimmed.reverse = c :: rest ∧ (c == '0') = false) :
    FormatAmount (some ((n * 10 ^ d
        + digitsToNat trimmed * 10 ^ (d - trimmed.length) : Nat) : Int)) d
      = (if trimmed = [] then natRepr n else natRepr n ++ '.' :: trimmed) := by
  have hrB : digitsToNat trimmed * 10 ^ (d - trimmed.length) < 10 ^ d :=
    frac_scaled_lt htr hL
  have hposd : 0 < 10 ^ d := by positivity
  have hdiv : (n * 10 ^ d + digitsToNat trimmed * 10 ^ (d - trimmed.length))
      / 10 ^ d = n := by
    rw [mul_comm, Nat.mul_add_div hposd, Nat.div_eq_of_lt hrB, Nat.add_zero]
  have hmod : (n * 10 ^ d + digitsToNat trimmed * 10 ^ (d - trimmed.length))
      % 10 ^ d = digitsToNat trimmed * 10 ^ (d - trimmed.length) := by
    rw [mul_comm, Nat.mul_add_mod, Nat.mod_eq_of_lt hrB]
  have hflo : floatTextF (((n * 10 ^ d
      + digitsToNat trimmed * 10 ^ (d - trimmed.length) : Nat)) : Int) d
      = natRepr n ++ '.' :: padLeftZeros (natRepr
          (digitsToNat trimmed * 10 ^ (d - trimmed.length))) d := by
    simp only [floatTextF]
    rw [if_neg (show ¬ (((n * 10 ^ d
        + digitsToNat trimmed * 10 ^ (d - trimmed.length) : Nat) : Int) < 0)
      by rw [not_lt]; positivity), if_neg (show ¬ (d = 0) by omega)]
    rw [Int.natAbs_ofNat, hdiv, hmod]
    rfl
  have hkey : padLeftZeros (natRepr
      (digitsToNat trimmed * 10 ^ (d - trimmed.length))) d
      = trimmed ++ List.replicate (d - trimmed.length) '0' := by
    apply digitsToNat_inj
    · unfold padLeftZeros
      rw [List.all_append, replicate_zero_all_digits, natRepr_all_digits]
      rfl
    · rw [List.all_append, htr, replicate_zero_all_digits]
      rfl
    · unfold padLeftZeros
      rw [List.length_append, List.length_replicate, List.length_append,
        List.length_replicate]
      have hlenr : (natRepr (digitsToNat trimmed
          * 10 ^ (d - trimmed.length))).length ≤ d :=
        natRepr_length_le (by omega) hrB
      omega
    · unfold padLeftZeros
      rw [digitsToNat_append, digitsToNat_replicate_zero, digitsToNat_natRepr,
        digitsToNat_append, digitsToNat_replicate_zero, List.length_replicate]
      simp
  show trimGo (floatTextF _ d) = _
  rw [hflo, hkey]
  unfold trimGo
  have hsrev : (natRepr n ++ '.' ::
      (trimmed ++ List.replicate (d - trimmed.length) '0')).reverse
      = (trimmed ++ List.replicate (d - trimmed.length) '0').reverse
        ++ '.' :: (natRepr n).reverse := by
    rw [List.reverse_append, List.reverse_cons, List.append_assoc]
    rfl
  rw [hsrev, trimZerosGoRev_append_dot]
  cases hlast with
  | inl hnil =>
    rw [hnil]
    simp only [List.nil_append, List.reverse_replicate,
      dropWhile_zeros_replicate, List.nil_append, List.reverse_cons,
      List.reverse_reverse]
    rw [if_pos ⟨by
        have := List.length_pos.mpr (natRepr_ne_nil n)
        rw [List.length_append, List.length_singleton]
        omega,
      List.getLast?_concat ..⟩]
    rw [List.dropLast_concat]
    simp
  | inr hex =>
    obtain ⟨c, rest, hrevtr, hc0⟩ := hex
    have htne : trimmed ≠ [] := by
      intro hcon
      rw [hcon] at hrevtr
      simp at hrevtr
    have hdropF : (trimmed ++ List.replicate (d - trimmed.length) '0').reverse.dropWhile
        (fun c => c == '0') = trimmed.reverse := by
      rw [List.reverse_append, List.reverse_replicate,
        dropWhile_zeros_replicate_append, hrevtr, List.dropWhile_cons,
        if_neg (by rw [hc0]; simp)]
    rw [hdropF]
    have hs1 : (trimmed.reverse ++ '.' :: (natRepr n).reverse).reverse
        = natRepr n ++ '.' :: trimmed := by
      rw [List.reverse_append, List.reverse_cons, List.reverse_reverse,
        List.reverse_reverse, List.append_assoc]
      rfl
    rw [hs1]
    have hcmem : c ∈ trimmed := by
      rw [← List.mem_reverse, hrevtr]
      simp
    have hcdot : c ≠ '.' := by
      rw [List.all_eq_true] at htr
      exact (isDigitChar_ne (htr c hcmem)).1
    have hglast : (natRepr n ++ '.' :: trimmed).getLast? = some c := by
      rw [List.getLast?_append_cons, List.getLast?_eq_head?_reverse,
        List.reverse_cons, hrevtr]
      rfl
    rw [if_neg (by
      intro hcon
      have := hcon.2
      rw [hglast] at this
      exact hcdot (Option.some_inj.mp this))]
    rw [if_neg htne]

/-- C6 counterexample: with decimals 0 the claim as stated fails: "10"
parses to 10 base units, but the display path trims the integer's trailing
zero and renders "1", which does not reproduce "10" (whose empty fractional
part leaves nothing to trim).  At decimals 0 the source's `big.Float`
pipeline is exact (the denominator loop never runs, so the quotient is the
amount itself), so this trace is the program's own behavior. -/
theorem parse_format_round_trip_counterexample :
    parseAmount "10".data 0 "0xhash".data = .ok 10
    ∧ FormatAmount (some 10) 0 = "1".data
    ∧ "1".data ≠ "10".data := by
  refine ⟨rfl, rfl, by decide⟩

/-- C6 (amended): for decimals between 1 and 22 and a parsed value below
`2 ^ 63` — the region where the display path's `big.Float` arithmetic is
exact, see `floatTextF` — parsing a well-formed decimal string whose
trimmed fractional part fits the token's decimals yields its base units,
and displaying those base units reproduces the string with trailing
fractional zeros and a trailing decimal point trimmed.  Outside this
region the claim fails: at decimals 0 the trim loop strips the integer's
own zeros (see the counterexample), and from decimals 23 on, or for
amounts of 63 bits and more, the source's float rounding can change the
rendered digits (e.g. `10 ^ 23` base units at decimals 23 print as
`1.00000000000000008388608`). -/
theorem parse_format_round_trip (n d : Nat) (fopt : Option (List Char))
    (txHash : List Char) (hd : 1 ≤ d) (_hd22 : d ≤ 22)
    (hdig : (fopt.getD []).all isDigitChar = true)
    (hlen : (trimTrailingZeros (fopt.getD [])).length ≤ d)
    (_hv : decimalValue n fopt d < 2 ^ 63) :
    parseAmount (decimalString n fopt) (d : Int) txHash
      = .ok ((decimalValue n fopt d : Nat) : Int)
    ∧ FormatAmount (some ((decimalValue n fopt d : Nat) : Int)) d
      = trimmedDecimalString n fopt := by
  cases fopt with
  | none =>
    constructor
    · show parseAmount (natRepr n ++ []) (d : Int) txHash
        = .ok ((n * 10 ^ d : Nat) : Int)
      rw [List.append_nil]
      exact parseAmount_natRepr n d txHash
    · show FormatAmount (some ((n * 10 ^ d : Nat) : Int)) d = natRepr n
      have hfo := formatAmount_of_parts n d [] hd (by simp) rfl (Or.inl rfl)
      simpa [digitsToNat] using hfo
  | some f =>
    simp only [Option.getD] at hdig hlen
    constructor
    · show parseAmount (natRepr n ++ '.' :: f) (d : Int) txHash = _
      rw [parseAmount_decimalString n f d txHash hdig hlen]
      rfl
    · have hlast : trimTrailingZeros f = []
          ∨ ∃ c rest, (trimTrailingZeros f).reverse = c :: rest
              ∧ (c == '0') = false := by
        by_cases htr : trimTrailingZeros f = []
        · exact Or.inl htr
        · obtain ⟨c, rest, hD, _, hc0, _⟩ := trimmed_decomp hdig htr
          exact Or.inr ⟨c, rest, hD, hc0⟩
      have hfo := formatAmount_of_parts n d (trimTrailingZeros f) hd hlen
        (trimTrailingZeros_all_digits hdig) hlast
      show FormatAmount (some ((n * 10 ^ d
          + digitsToNat (trimTrailingZeros f)
              * 10 ^ (d - (trimTrailingZeros f).length) : Nat) : Int)) d
        = trimmedDecimalString n (some f)
      rw [hfo]
      rfl

/-- Witness for the amended C6 at the spec's example: "101.500000" with
decimals 6 parses to 101500000 base units and displays as "101.5". -/
theorem parse_format_round_trip_witness :
    parseAmount (decimalString 101 (some "500000".data)) 6 "0xhash".data
      = .ok 101500000
    ∧ FormatAmount (some 101500000) 6 = "101.5".data
    ∧ decimalString 101 (some "500000".data) = "101.500000".data := by
  have h := parse_format_round_trip 101 6 (some "500000".data) "0xhash".data
    (by omega) (by omega) (by decide) (by decide) (by decide)
  refine ⟨?_, ?_, by decide⟩
  · exact h.1
  · rw [show (some (101500000 : Int))
      = some ((decimalValue 101 (some "500000".data) 6 : Nat) : Int) from rfl,
      h.2]
    decide

/-- Helper: a list all of whose members avoid the dot does not contain
one. -/
theorem contains_dot_eq_false_of_all {l : List Char}
    (h : l.all (fun c => !(c == '.')) = true) : l.contains '.' = false := by
  induction l with
  | nil => rfl
  | cons c t ih =>
    simp only [List.all_cons, Bool.and_eq_true] at h
    rw [List.contains_cons, ih h.2]
    have hcn : c ≠ '.' := by simpa using h.1
    have hcc : ('.' == c) = false := beq_eq_false_iff_ne.mpr (Ne.symm hcn)
    rw [hcc]
    rfl

/-- Helper: filtering preserves a universally satisfied property. -/
theorem all_filter_of_all {p q : Char → Bool} {l : List Char}
    (h : l.all p = true) : (l.filter q).all p = true := by
  rw [List.all_eq_true] at h ⊢
  intro c hc
  exact h c (List.mem_of_mem_filter hc)

/-- Helper: separator sanitizing is idempotent. -/
theorem sanitizeSeparators_idem (l : List Char) :
    sanitizeSeparators (sanitizeSeparators l) = sanitizeSeparators l := by
  unfold sanitizeSeparators
  apply List.filter_eq_self.mpr
  intro c hc
  exact (List.mem_filter.mp hc).2

/-- Helper: a successful parse of the sanitized string carries over to the
original string, with the same value (`BigIntFromString` sanitizes again
internally). -/
theorem bigIntFromString_sanitize_ok {l : List Char} {v : Int}
    (h : BigIntFromString (sanitizeSeparators l) = .ok v) :
    BigIntFromString l = .ok v := by
  unfold BigIntFromString at h ⊢
  rw [sanitizeSeparators_idem] at h
  cases hs : setStringBase10 (sanitizeSeparators l) with
  | none =>
    rw [hs] at h
    simp at h
  | some w =>
    rw [hs] at h
    exact h

/-- Helper: splitting any dot-free prefix at the appended point. -/
theorem splitOnFirstDot_append {ip : List Char}
    (hip : ip.all (fun c => !(c == '.')) = true) (f : List Char) :
    splitOnFirstDot (ip ++ '.' :: f) = (ip, f) := by
  unfold splitOnFirstDot
  have hx : (fun c => !(c == '.')) '.' = false := rfl
  rw [(takeWhile_dropWhile_marked hip hx f).1,
    (takeWhile_dropWhile_marked hip hx f).2]
  rfl

/-- Helper: a successful dotless `splitAmountParts` of the sanitized string
carries over to the original. -/
theorem splitAmountParts_strip_nodot (ip txHash : List Char)
    (hip : ip.all (fun c => !(c == '.')) = true)
    (t : Int × Int × Nat)
    (h : splitAmountParts (sanitizeSeparators ip) txHash = .ok t) :
    splitAmountParts ip txHash = .ok t := by
  have hsan : (sanitizeSeparators ip).all (fun c => !(c == '.')) = true :=
    all_filter_of_all hip
  unfold splitAmountParts at h ⊢
  rw [if_pos (by rw [contains_dot_eq_false_of_all hsan]; rfl)] at h
  rw [if_pos (by rw [contains_dot_eq_false_of_all hip]; rfl)]
  cases hbig : BigIntFromString (sanitizeSeparators ip) with
  | error e =>
    rw [hbig] at h
    simp at h
  | ok w =>
    rw [hbig] at h
    rw [bigIntFromString_sanitize_ok hbig]
    exact h

/-- Helper: a successful dotted `splitAmountParts` of the string with its
integer part sanitized carries over to the original. -/
theorem splitAmountParts_strip_dot (ip f txHash : List Char)
    (hip : ip.all (fun c => !(c == '.')) = true)
    (t : Int × Int × Nat)
    (h : splitAmountParts (sanitizeSeparators ip ++ '.' :: f) txHash = .ok t) :
    splitAmountParts (ip ++ '.' :: f) txHash = .ok t := by
  have hsan : (sanitizeSeparators ip).all (fun c => !(c == '.')) = true :=
    all_filter_of_all hip
  unfold splitAmountParts at h ⊢
  rw [if_neg (by rw [contains_dot_append]; simp)] at h
  rw [if_neg (by rw [contains_dot_append]; simp)]
  simp only [splitOnFirstDot_append hsan f] at h
  simp only [splitOnFirstDot_append hip f]
  cases hbig : BigIntFromString (sanitizeSeparators ip) with
  | error e =>
    rw [hbig] at h
    simp at h
  | ok w =>
    rw [hbig] at h
    rw [bigIntFromString_sanitize_ok hbig]
    exact h

/-- Helper: the tail expansion of `parseAmount` mentions the amount string
only in error text, so success is independent of it. -/
theorem parseAmountFromParts_ok_irrel {s1 s2 : List Char} {d : Int}
    {txHash : List Char} {w fr : Int} {L : Nat} {v : Int}
    (hok : parseAmountFromParts s1 d txHash w fr L = .ok v) :
    parseAmountFromParts s2 d txHash w fr L = .ok v := by
  unfold parseAmountFromParts at hok ⊢
  by_cases h1 : 0 < fr
  · rw [if_pos h1] at hok ⊢
    by_cases h2 : d - (L : Int) < 0
    · rw [if_pos h2] at hok
      simp at hok
    · rw [if_neg h2] at hok ⊢
      exact hok
  · rw [if_neg h1] at hok ⊢
    exact hok

/-- C8: an amount string with grouping separators (comma, underscore,
space) in its dot-free integer part parses to base units exactly when the
string with those separators removed does, with the same value — both for
integer-valued amounts and for amounts with a fractional part. -/
theorem parseAmount_grouping_separators (ip f : List Char) (d : Int)
    (txHash : List Char) (v : Int)
    (hip : ip.all (fun c => !(c == '.')) = true) :
    (parseAmount (sanitizeSeparators ip) d txHash = .ok v
      → parseAmount ip d txHash = .ok v)
    ∧ (parseAmount (sanitizeSeparators ip ++ '.' :: f) d txHash = .ok v
      → parseAmount (ip ++ '.' :: f) d txHash = .ok v) := by
  constructor
  · intro h
    unfold parseAmount at h ⊢
    cases hie : (sanitizeSeparators ip).isEmpty with
    | true =>
      rw [hie] at h
      simp at h
    | false =>
      rw [hie] at h
      simp only [Bool.false_eq_true, if_false] at h
      have hipn : ip ≠ [] := by
        intro hcon
        rw [hcon] at hie
        simp [sanitizeSeparators] at hie
      rw [if_neg (by rw [isEmpty_false_of_ne_nil hipn]; simp)]
      cases hsp : splitAmountParts (sanitizeSeparators ip) txHash with
      | error e =>
        rw [hsp] at h
        simp at h
      | ok t =>
        obtain ⟨w, fr, L⟩ := t
        rw [hsp] at h
        rw [splitAmountParts_strip_nodot ip txHash hip (w, fr, L) hsp]
        exact parseAmountFromParts_ok_irrel h
  · intro h
    unfold parseAmount at h ⊢
    rw [if_neg (by
      rw [isEmpty_false_of_ne_nil
        (show sanitizeSeparators ip ++ '.' :: f ≠ [] by simp)]
      simp)] at h
    rw [if_neg (by
      rw [isEmpty_false_of_ne_nil (show ip ++ '.' :: f ≠ [] by simp)]
      simp)]
    cases hsp : splitAmountParts (sanitizeSeparators ip ++ '.' :: f) txHash with
    | error e =>
      rw [hsp] at h
      simp at h
    | ok t =>
      obtain ⟨w, fr, L⟩ := t
      rw [hsp] at h
      rw [splitAmountParts_strip_dot ip f txHash hip (w, fr, L) hsp]
      exact parseAmountFromParts_ok_irrel h

/-- Witness for C8: "4,157" and "1 234.5" parse (decimals 6) to the same
base units as their separator-free forms "4157" and "1234.5". -/
theorem parseAmount_grouping_separators_witness :
    parseAmount "4,157".data 6 "0xhash".data = .ok 4157000000
    ∧ parseAmount "1 234.5".data 6 "0xhash".data = .ok 1234500000 := by
  constructor
  · exact (parseAmount_grouping_separators "4,157".data [] 6 "0xhash".data
      4157000000 (by decide)).1 (by rfl)
  · exact (parseAmount_grouping_separators "1 234".data "5".data 6
      "0xhash".data 1234500000 (by decide)).2 (by rfl)

/-- C5: re-serializing a deserialized registry reproduces every hash/reason
pair, in order: the structured serialization layers of `ToYAML` and
`FromYAML` are mutually inverse on the decoded document. -/
theorem toSerialized_fromSerialized (x : YamlIgnoreList) :
    ToSerialized (FromSerialized x) = x := by
  cases x with
  | mk hashes =>
    simp only [FromSerialized, ToSerialized, List.map_map]
    congr 1
    exact List.map_id hashes

end TxnSync
